import Mathlib

/-!
Verification of the go-logslib record-encoding and buffered-delivery engine.

Modelling conventions (shallow embedding of the Go source):
* Go strings and byte buffers are `List Nat`, each element a byte value.
* Go `int64` is `Int`; where the Go code can overflow (unary negation),
  the wrap-around of two's-complement arithmetic is made explicit with
  `wrap64`.
* Fallible behaviour does not occur in the encoder (it never fails);
  the JSON well-formedness checker used for the parse-back property
  returns `Option`.
-/

namespace Logslib

/-- Byte list of an ASCII string literal. -/
def strBytes (s : String) : List Nat := s.toList.map Char.toNat

/-- The digit-extraction loop of `appendInt` (`for i > 0 { tmp[idx] = byte('0'+i%10); i /= 10 }`),
written least-significant digit first into the accumulator.  The `fuel`
argument mirrors the fixed 20-byte `tmp` array of the source: at most 20
digits can be produced, which covers every `int64` magnitude. -/
def digitsLoopF : Nat → Nat → List Nat → List Nat
  | 0, _, acc => acc
  | fuel + 1, i, acc =>
    if i = 0 then acc else digitsLoopF fuel (i / 10) ((48 + i % 10) :: acc)

/-- The digit loop of `appendInt`, with the 20-slot digit buffer of the source. -/
def digitsLoop (i : Nat) (acc : List Nat) : List Nat := digitsLoopF 20 i acc

/-- Two's-complement wrap-around of a 64-bit signed integer: Go's `int64`
arithmetic is defined to wrap, so `i = -i` at `math.MinInt64` yields
`math.MinInt64` again. -/
def wrap64 (x : Int) : Int := (x + 2 ^ 63) % 2 ^ 64 - 2 ^ 63

/-- `appendInt(buf, i)` from the source: zero is the single byte `'0'`;
a negative value emits `'-'` and negates (with 64-bit wrap-around, as in Go),
then the digit loop renders the remaining value while it is positive. -/
def appendInt (buf : List Nat) (i : Int) : List Nat :=
  if i = 0 then buf ++ [48]
  else if i < 0 then (buf ++ [45]) ++ digitsLoop (wrap64 (-i)).toNat []
  else buf ++ digitsLoop i.toNat []

/-- The standard base-10 decimal rendering of an integer, as byte values
(this is Lean's `Int.repr`, i.e. ordinary decimal notation). -/
def stdDecimal (v : Int) : List Nat := strBytes (toString v)

/- ### Field values and the value encoder -/

/-- Dynamic field values.  Go `int` and `int64` both dispatch to `appendInt`
after conversion to `int64`, so one integer constructor carries the value.
`float64` payloads are carried as exact rationals: the IEEE rounding of the
double arithmetic inside `appendJSONFloat` is abstracted to exact rational
arithmetic (see there).  `other` stands for a value of any unsupported
dynamic type (the `default` arm of the source's switches). -/
inductive Value where
  | str (s : List Nat)
  | int (i : Int)
  | float (f : Rat)
  | bool (b : Bool)
  | other
deriving DecidableEq

/-- A key/value pair attached to a log entry. -/
structure Field where
  key : List Nat
  value : Value
deriving DecidableEq

/-- `needsQuoting(s)`: the string contains a space, `=` or `"`.  The source
ranges over runes; the three tested characters are ASCII, whose bytes occur
in UTF-8 only as those very characters, so the byte-level test is the same. -/
def needsQuoting (s : List Nat) : Bool :=
  s.any (fun r => r == 32 || r == 61 || r == 34)

/-- The `true`/`false` literals shared by both encoders. -/
def boolBytes (b : Bool) : List Nat :=
  if b then strBytes "true" else strBytes "false"

/-- Truncation toward zero of a rational, modelling Go's `int64(f)`
conversion.  The conversion is exact for values within the `int64` range;
outside it Go leaves the result implementation-defined, modelled here as
exact truncation. -/
def ratTrunc (q : Rat) : Int := if 0 ≤ q then ⌊q⌋ else -⌊-q⌋

/-- `appendJSONFloat(buf, f)`: zero renders as `0`; a negative value emits
`-` and continues with its magnitude; the integer part goes through
`appendInt`, and when the fractional part is positive it is multiplied by
1000, truncated to an integer and appended after a decimal point.  The
double arithmetic of the source (`int64(f)`, `f - float64(integer)`,
`fractional * 1000`) is modelled as exact rational arithmetic. -/
def appendJSONFloat (buf : List Nat) (f : Rat) : List Nat :=
  if f = 0 then buf ++ [48]
  else
    let p := if f < 0 then (buf ++ [45], -f) else (buf, f)
    let buf := p.1
    let f := p.2
    let integer : Int := ratTrunc f
    let fractional : Rat := f - (integer : Rat)
    let buf := appendInt buf integer
    if 0 < fractional then appendInt (buf ++ [46]) (ratTrunc (fractional * 1000))
    else buf

/-- `appendValue(buf, value)` — the text-mode value encoder. -/
def appendValue (buf : List Nat) (v : Value) : List Nat :=
  match v with
  | .str s => if needsQuoting s then ((buf ++ [34]) ++ s) ++ [34] else buf ++ s
  | .int i => appendInt buf i
  | .float f => appendJSONFloat buf f
  | .bool b => buf ++ boolBytes b
  | .other => ((buf ++ [34]) ++ strBytes "unknown") ++ [34]

/-- `appendJSONString(buf, s)`: the byte loop escaping `"`, `\`, newline,
carriage return and tab; every other byte is appended as-is. -/
def appendJSONString (buf : List Nat) : List Nat → List Nat
  | [] => buf
  | r :: rest =>
    let buf :=
      if r = 34 then buf ++ [92, 34]
      else if r = 92 then buf ++ [92, 92]
      else if r = 10 then buf ++ [92, 110]
      else if r = 13 then buf ++ [92, 114]
      else if r = 9 then buf ++ [92, 116]
      else buf ++ [r]
    appendJSONString buf rest

/-- The escape of a single byte (the body of the `appendJSONString` loop). -/
def escByte (r : Nat) : List Nat :=
  if r = 34 then [92, 34]
  else if r = 92 then [92, 92]
  else if r = 10 then [92, 110]
  else if r = 13 then [92, 114]
  else if r = 9 then [92, 116]
  else [r]

/-- The escape of a whole byte string. -/
def escStr : List Nat → List Nat
  | [] => []
  | r :: rest => escByte r ++ escStr rest

/-- `appendJSONValue(buf, value)` — the JSON-mode value encoder. -/
def appendJSONValue (buf : List Nat) (v : Value) : List Nat :=
  match v with
  | .str s => appendJSONString (buf ++ [34]) s ++ [34]
  | .int i => appendInt buf i
  | .float f => appendJSONFloat buf f
  | .bool b => buf ++ boolBytes b
  | .other => appendJSONString (buf ++ [34]) (strBytes "unknown") ++ [34]

/- ### Levels, formats, configuration -/

/-- The `Level` constants of the source (`int8` values). -/
def DebugLevel : Int := -1

def InfoLevel : Int := 0

def WarnLevel : Int := 1

def ErrorLevel : Int := 2

def FatalLevel : Int := 3

def PanicLevel : Int := 4

/-- `Level.String()`. -/
def levelString (l : Int) : List Nat :=
  if l = DebugLevel then strBytes "DEBUG"
  else if l = InfoLevel then strBytes "INFO"
  else if l = WarnLevel then strBytes "WARN"
  else if l = ErrorLevel then strBytes "ERROR"
  else if l = FatalLevel then strBytes "FATAL"
  else if l = PanicLevel then strBytes "PANIC"
  else strBytes "UNKNOWN"

/-- Output formats. -/
inductive Format where
  | text
  | json
deriving DecidableEq

/-- Logger configuration.  The sink itself is modelled in `LogState`.
`useUTC` is the `Config.UseUTC` flag: it is read by `appendJSON` and set by
`ConfigFromEnv` in the source; its field declaration sits in a portion of
the repository not captured under `src/`, so the field is modelled from
those usages (spec: "timestamp time-zone mode (UTC or local)"). -/
structure Config where
  level : Int
  format : Format
  bufferSize : Int
  useUTC : Bool
deriving DecidableEq

/- ### Time and the two timestamp layouts -/

/-- A Go `time.Time`, reduced to what the two formatting layouts read:
seconds since the Unix epoch, the nanosecond within that second, and the
zone offset in minutes (0 meaning UTC). -/
structure GoTime where
  sec : Int
  nsec : Nat
  offsetMin : Int
deriving DecidableEq

/-- `Time.UTC()`: the same instant with the zone forced to UTC. -/
def GoTime.utc (t : GoTime) : GoTime := { t with offsetMin := 0 }

/-- Civil date (year, month, day) from days since the Unix epoch, proleptic
Gregorian.  This models the date computation of Go's standard time
formatting, an external collaborator of the engine, by the standard
civil-from-days algorithm (truncated integer division throughout). -/
def civilFromDays (z0 : Int) : Int × Int × Int :=
  let z := z0 + 719468
  let era := Int.tdiv (if 0 ≤ z then z else z - 146096) 146097
  let doe := z - era * 146097
  let yoe := Int.tdiv (doe - Int.tdiv doe 1460 + Int.tdiv doe 36524 - Int.tdiv doe 146096) 365
  let y := yoe + era * 400
  let doy := doe - (365 * yoe + Int.tdiv yoe 4 - Int.tdiv yoe 100)
  let mp := Int.tdiv (5 * doy + 2) 153
  let d := doy - Int.tdiv (153 * mp + 2) 5 + 1
  let m := mp + (if mp < 10 then 3 else -9)
  (y + (if m ≤ 2 then 1 else 0), m, d)

/-- The decimal digits of `n` left-padded with zeros to width `w`. -/
def padNat (w n : Nat) : List Nat :=
  let ds := digitsLoop n []
  List.replicate (w - ds.length) 48 ++ ds

/-- Zero-padded signed number (the year may be negative). -/
def padInt (w : Nat) (i : Int) : List Nat :=
  if i < 0 then 45 :: padNat w (-i).toNat else padNat w i.toNat

/-- The `Z07:00` layout element: a literal `Z` for zero offset, otherwise
the signed `hh:mm` offset. -/
def zoneBytes (offsetMin : Int) : List Nat :=
  if offsetMin = 0 then [90]
  else
    let sign := if offsetMin < 0 then 45 else 43
    let a := (if offsetMin < 0 then -offsetMin else offsetMin).toNat
    sign :: (padNat 2 (a / 60) ++ [58] ++ padNat 2 (a % 60))

/-- The `2006-01-02T15:04:05` part of both layouts, in the time's own zone. -/
def dateTimeBytes (t : GoTime) : List Nat :=
  let localSec := t.sec + t.offsetMin * 60
  let days := Int.fdiv localSec 86400
  let sod := (Int.fmod localSec 86400).toNat
  let ymd := civilFromDays days
  padInt 4 ymd.1 ++ [45] ++ padInt 2 ymd.2.1 ++ [45] ++ padInt 2 ymd.2.2 ++ [84] ++
    padNat 2 (sod / 3600) ++ [58] ++ padNat 2 (sod % 3600 / 60) ++ [58] ++ padNat 2 (sod % 60)

/-- The `.000` layout element: the millisecond, always three digits. -/
def milliFrac (nsec : Nat) : List Nat := 46 :: padNat 3 (nsec / 1000000)

/-- The `.999999999` layout element of `time.RFC3339Nano`: the nanosecond
with trailing zeros trimmed, omitted entirely when zero. -/
def nanoFrac (nsec : Nat) : List Nat :=
  if nsec = 0 then []
  else 46 :: ((padNat 9 nsec).reverse.dropWhile (fun b => b == 48)).reverse

/-- Go layout `"2006-01-02T15:04:05.000Z07:00"` — the text-mode timestamp. -/
def fmtMilli (t : GoTime) : List Nat :=
  dateTimeBytes t ++ milliFrac t.nsec ++ zoneBytes t.offsetMin

/-- Go layout `time.RFC3339Nano` — the JSON-mode timestamp. -/
def fmtNano (t : GoTime) : List Nat :=
  dateTimeBytes t ++ nanoFrac t.nsec ++ zoneBytes t.offsetMin

/- ### Record encoders -/

/-- The body of `appendText`'s field loop: space, key, `=`, encoded value. -/
def textFieldF (buf : List Nat) (field : Field) : List Nat :=
  appendValue ((buf ++ [32]) ++ field.key ++ [61]) field.value

/-- `Logger.appendText`.  `nowIn` stands for the `time.Now()` sample; the
source immediately forces it to UTC. -/
def appendText (nowIn : GoTime) (buf : List Nat) (level : Int) (msg : List Nat)
    (fields : List Field) : List Nat :=
  let now := nowIn.utc
  let buf := buf ++ fmtMilli now ++ [32] ++ levelString level ++ [32] ++ msg
  fields.foldl textFieldF buf

/-- The body of `appendJSON`'s field loop: comma, quoted escaped key,
colon, encoded value. -/
def jsonFieldF (buf : List Nat) (field : Field) : List Nat :=
  appendJSONValue (appendJSONString (buf ++ [44, 34]) field.key ++ [34, 58]) field.value

/-- `Logger.appendJSON`.  `nowIn` stands for the `time.Now()` sample, forced
to UTC only when the configuration requests it. -/
def appendJSON (cfg : Config) (nowIn : GoTime) (buf : List Nat) (level : Int)
    (msg : List Nat) (fields : List Field) : List Nat :=
  let buf := buf ++ [123]
  let now := if cfg.useUTC then nowIn.utc else nowIn
  let buf := (buf ++ strBytes "\"timestamp\":\"" ++ fmtNano now) ++ [34]
  let buf := (buf ++ strBytes ",\"level\":\"" ++ levelString level) ++ [34]
  let buf := appendJSONString (buf ++ strBytes ",\"message\":\"") msg ++ [34]
  let buf := fields.foldl jsonFieldF buf
  buf ++ [125]

/- ### Scratch buffers, pool, delivery channel, logger facade -/

/-- A Go byte slice, reduced to its live contents and its capacity. -/
structure Buf where
  cap : Nat
  data : List Nat
deriving DecidableEq

/-- Capacity picked by the Go runtime when an append outgrows a slice:
at least the needed length (the exact growth policy of the runtime, an
external collaborator, does not matter here). -/
def growCap (needed oldCap : Nat) : Nat := max needed (2 * oldCap)

/-- Go `append`: the backing array is reused when the result fits its
capacity, otherwise a larger one is allocated. -/
def bufAppend (b : Buf) (xs : List Nat) : Buf :=
  if b.data.length + xs.length ≤ b.cap then { cap := b.cap, data := b.data ++ xs }
  else { cap := growCap (b.data.length + xs.length) b.cap, data := b.data ++ xs }

/-- The mutable state of one `Logger`: the accumulation buffer, the sink
(recorded as the list of `Write` calls it has received), and the idle
scratch buffers of the pool. -/
structure LogState where
  buffer : List Nat
  sink : List (List Nat)
  pool : List Buf
deriving DecidableEq

/-- `sync.Pool.Get`: hand out an idle buffer, or a fresh one of the
256-byte starting capacity from the pool's `New` function.  Which idle
buffer `sync.Pool` returns is unspecified; the model takes the first. -/
def poolGet (pool : List Buf) : Buf × List Buf :=
  match pool with
  | [] => ({ cap := 256, data := [] }, [])
  | b :: rest => (b, rest)

/-- `Logger.flush` (internal, lock held): if the accumulation buffer is
non-empty, write its contents to the sink and reset it to empty length. -/
def flush (st : LogState) : LogState :=
  if 0 < st.buffer.length then { st with sink := st.sink ++ [st.buffer], buffer := [] }
  else st

/-- `Logger.write`: buffered mode flushes first when the accumulated length
plus the record length exceeds the capacity, then appends the record and a
newline to the accumulation buffer; unbuffered mode writes the record and a
newline straight to the sink (two `Write` calls). -/
def write (cfg : Config) (st : LogState) (buf : List Nat) : LogState :=
  if 0 < cfg.bufferSize then
    let st := if cfg.bufferSize < (st.buffer.length : Int) + (buf.length : Int) then flush st
      else st
    { st with buffer := (st.buffer ++ buf) ++ [10] }
  else { st with sink := (st.sink ++ [buf]) ++ [[10]] }

/-- `Logger.Flush` (public): takes the lock and flushes, only in buffered
mode. -/
def Flush (cfg : Config) (st : LogState) : LogState :=
  if 0 < cfg.bufferSize then flush st else st

/-- `Logger.log`.  Returns the new state together with the number of scratch
buffers acquired from the pool during the call.  The deferred
`l.pool.Put(buf)` evaluates its argument at the `defer` statement — before
the encoders run — so the slice handed back to the pool is the one acquired
(at empty length), not a reallocated one.  The encoders thread the scratch
buffer through appends; their cumulative effect on it is one append of the
encoded record, modelled by a single `bufAppend`. -/
def log (cfg : Config) (now : GoTime) (st : LogState) (level : Int)
    (msg : List Nat) (fields : List Field) : LogState × Nat :=
  if level < cfg.level then (st, 0)
  else
    let got := poolGet st.pool
    let buf0 : Buf := { got.1 with data := [] }
    let deferredPut := buf0
    let bytes :=
      match cfg.format with
      | .json => appendJSON cfg now [] level msg fields
      | .text => appendText now [] level msg fields
    let buf := bufAppend buf0 bytes
    let st1 := write cfg { st with pool := got.2 } buf.data
    ({ st1 with pool := st1.pool ++ [deferredPut] }, 1)

/- ### A JSON well-formedness checker (from the spec's words)

The spec demands that "JSON output is syntactically valid JSON (parses
back) with keys in the exact order: timestamp, level, message, then fields
in input order".  The following byte-level checker follows the RFC 8259
grammar for a single-line object of primitive members (the only shape the
record encoder emits): it is the spec-side definition the encoder output is
checked against, not a translation of repository code. -/

/-- JSON values occurring in an encoded record. -/
inductive JVal where
  | jstr (s : List Nat)
  | jnum
  | jbool (b : Bool)
deriving DecidableEq

/-- ASCII decimal digit. -/
def isDigit (b : Nat) : Bool := 48 ≤ b && b ≤ 57

/-- The byte named by a JSON escape character, if it is a legal escape. -/
def unescapeByte (e : Nat) : Option Nat :=
  if e = 34 then some 34
  else if e = 92 then some 92
  else if e = 47 then some 47
  else if e = 98 then some 8
  else if e = 102 then some 12
  else if e = 110 then some 10
  else if e = 114 then some 13
  else if e = 116 then some 9
  else none

/-- Parse the body of a JSON string after the opening quote: unescaped
bytes 0x20 and above (other than `"` and `\`) or a two-character escape;
raw control bytes below 0x20 are invalid.  Returns the unescaped content
and the input after the closing quote. -/
def parseStringBody : List Nat → Option (List Nat × List Nat)
  | [] => none
  | b :: rest =>
    if b = 34 then some ([], rest)
    else if b = 92 then
      match rest with
      | [] => none
      | e :: rest2 =>
        match unescapeByte e with
        | some c => (parseStringBody rest2).map (fun p => (c :: p.1, p.2))
        | none => none
    else if 32 ≤ b then (parseStringBody rest).map (fun p => (b :: p.1, p.2))
    else none

/-- Longest digit prefix and the remainder. -/
def spanDigits : List Nat → (List Nat × List Nat)
  | [] => ([], [])
  | b :: rest =>
    if isDigit b then
      let p := spanDigits rest
      (b :: p.1, p.2)
    else ([], b :: rest)

/-- The integer part of a JSON number: `0`, or a nonzero digit followed by
further digits. -/
def parseIntPart : List Nat → Option (List Nat)
  | [] => none
  | b :: rest =>
    if b = 48 then some rest
    else if isDigit b then some (spanDigits rest).2
    else none

/-- Optional fraction and exponent of a JSON number. -/
def parseFracExp (l : List Nat) : Option (List Nat) :=
  let afterFrac : Option (List Nat) :=
    match l with
    | [] => some []
    | b :: rest =>
      if b = 46 then
        let p := spanDigits rest
        if p.1.isEmpty then none else some p.2
      else some (b :: rest)
  match afterFrac with
  | none => none
  | some l2 =>
    match l2 with
    | [] => some []
    | b :: rest =>
      if b = 101 || b = 69 then
        let rest2 :=
          match rest with
          | [] => []
          | c :: r => if c = 43 || c = 45 then r else c :: r
        let p := spanDigits rest2
        if p.1.isEmpty then none else some p.2
      else some (b :: rest)

/-- A JSON number per RFC 8259; returns the remaining input. -/
def parseNumber (l : List Nat) : Option (List Nat) :=
  let l1 :=
    match l with
    | [] => ([] : List Nat)
    | b :: rest => if b = 45 then rest else b :: rest
  match parseIntPart l1 with
  | none => none
  | some l2 => parseFracExp l2

/-- A primitive JSON value: string, `true`, `false` or number. -/
def parseValue (l : List Nat) : Option (JVal × List Nat) :=
  match l with
  | [] => none
  | b :: rest =>
    if b = 34 then (parseStringBody rest).map (fun p => (JVal.jstr p.1, p.2))
    else if (b :: rest).take 4 = [116, 114, 117, 101] then
      some (JVal.jbool true, (b :: rest).drop 4)
    else if (b :: rest).take 5 = [102, 97, 108, 115, 101] then
      some (JVal.jbool false, (b :: rest).drop 5)
    else
      match parseNumber (b :: rest) with
      | some rest2 => some (JVal.jnum, rest2)
      | none => none

/-- One `"key":value` member. -/
def parseMember (l : List Nat) : Option ((List Nat × JVal) × List Nat) :=
  match l with
  | [] => none
  | b :: rest =>
    if b = 34 then
      match parseStringBody rest with
      | none => none
      | some kr =>
        match kr.2 with
        | [] => none
        | c :: rest2 =>
          if c = 58 then
            match parseValue rest2 with
            | none => none
            | some vr => some ((kr.1, vr.1), vr.2)
          else none
    else none

/-- The members of an object body, comma-separated, ending at the closing
brace which must end the input.  `fuel` bounds the recursion; the record
checker supplies more fuel than there are input bytes. -/
def parseMembers : Nat → List Nat → Option (List (List Nat × JVal))
  | 0, _ => none
  | fuel + 1, l =>
    match parseMember l with
    | none => none
    | some (kv, rest) =>
      match rest with
      | [] => none
      | c :: r =>
        if c = 44 then (parseMembers fuel r).map (fun ps => kv :: ps)
        else if c = 125 then (if r = [] then some [kv] else none)
        else none

/-- Whether a byte sequence is one syntactically valid JSON object of
primitive members, and if so which members, in order, it contains. -/
def parseRecord (l : List Nat) : Option (List (List Nat × JVal)) :=
  match l with
  | [] => none
  | b :: rest =>
    if b = 123 then
      if rest = [125] then some [] else parseMembers (rest.length + 1) rest
    else none

/-- Bytes that can sit inside a JSON string without escaping trouble:
anything from 0x20 up, or one of the three control bytes the encoder
escapes (tab, newline, carriage return). -/
def cleanByte (b : Nat) : Bool :=
  b < 256 && (decide (32 ≤ b) || b == 9 || b == 10 || b == 13)

/-- A byte string of clean bytes. -/
def cleanStr (s : List Nat) : Bool := s.all cleanByte

/-- Side conditions on one field value under which the JSON record is
well-formed: strings clean; `int64` values above `math.MinInt64` (at the
minimum `appendInt` emits a lone `-`); floats within the `int64` range
(outside it Go's float-to-integer conversion is implementation-defined). -/
def valueOK : Value → Prop
  | .str s => cleanStr s = true
  | .int i => -(2 ^ 63) < i ∧ i < 2 ^ 63
  | .float f => -((2 : Rat) ^ 63) < f ∧ f < (2 : Rat) ^ 63
  | .bool _ => True
  | .other => True

/-- The serializations of the trailing members of an object: each prefixed
by its comma, closed by the final brace (proof-side decomposition of the
encoder output). -/
def membersTail : List (List Nat) → List Nat
  | [] => [125]
  | m :: ms => ([44] ++ m) ++ membersTail ms

/-- A whole object body after the opening brace: the first member followed
by the comma-prefixed rest and the closing brace. -/
def membersBytes (m0 : List Nat) (ms : List (List Nat)) : List Nat :=
  m0 ++ membersTail ms

/-- The serialization of one `"key":value` member as the record encoder
emits it. -/
def memberB (key : List Nat) (v : Value) : List Nat :=
  [34] ++ escStr key ++ [34, 58] ++ appendJSONValue [] v

/-- The JSON value a field value parses back to. -/
def jvalOf : Value → JVal
  | .str s => .jstr s
  | .int _ => .jnum
  | .float _ => .jnum
  | .bool b => .jbool b
  | .other => .jstr (strBytes "unknown")

/-- `b` serializes the member `kv`: the member parser recognizes it at the
head of any well-delimited input. -/
def MemberEnc (b : List Nat) (kv : List Nat × JVal) : Prop :=
  ∀ rest, (rest.head? = some 44 ∨ rest = [125]) → parseMember (b ++ rest) = some (kv, rest)

/-- Input that may legally follow a JSON number: end of input, or a byte
that can extend neither the digit run nor a fraction or exponent. -/
def NumDelim (rest : List Nat) : Prop :=
  rest = [] ∨ ∃ c r, rest = c :: r ∧ isDigit c = false ∧ c ≠ 46 ∧ c ≠ 101 ∧ c ≠ 69

/- ### Decimal-digit correctness lemmas -/

theorem digitChar_toNat {d : Nat} (h : d < 10) : (Nat.digitChar d).toNat = 48 + d := by
  interval_cases d <;> rfl

theorem digitsLoopF_zero (fuel : Nat) (acc : List Nat) : digitsLoopF fuel 0 acc = acc := by
  cases fuel <;> simp [digitsLoopF]

theorem toDigitsCore_append (fuel : Nat) :
    ∀ (n : Nat) (acc : List Char),
      Nat.toDigitsCore 10 fuel n acc = Nat.toDigitsCore 10 fuel n [] ++ acc := by
  induction fuel with
  | zero => intro n acc; simp [Nat.toDigitsCore]
  | succ f ih =>
    intro n acc
    simp only [Nat.toDigitsCore]
    by_cases h : n / 10 = 0
    · simp [h]
    · simp only [h, if_false]
      rw [ih (n / 10) (Nat.digitChar (n % 10) :: acc),
        ih (n / 10) [Nat.digitChar (n % 10)]]
      simp

theorem toDigitsCore_fuel_irrel :
    ∀ (n fuel fuel' : Nat), n < fuel → n < fuel' →
      Nat.toDigitsCore 10 fuel n [] = Nat.toDigitsCore 10 fuel' n [] := by
  intro n
  induction n using Nat.strong_induction_on with
  | _ n ih =>
    intro fuel fuel' hf hf'
    match fuel, fuel' with
    | f + 1, f' + 1 =>
      simp only [Nat.toDigitsCore]
      by_cases h : n / 10 = 0
      · simp [h]
      · simp only [h, if_false]
        rw [toDigitsCore_append f, toDigitsCore_append f']
        have hlt : n / 10 < n := Nat.div_lt_self (Nat.pos_of_ne_zero (by
          intro h0; exact h (by simp [h0]))) (by norm_num)
        have h1 : n / 10 < f := by omega
        have h2 : n / 10 < f' := by omega
        rw [ih (n / 10) hlt f f' h1 h2]

/-- Unfolding rule for `Nat.toDigits 10`: peel off the least significant digit. -/
theorem toDigits_unfold (n : Nat) (hn : 0 < n) :
    Nat.toDigits 10 n =
      (if n / 10 = 0 then [] else Nat.toDigits 10 (n / 10)) ++ [Nat.digitChar (n % 10)] := by
  by_cases h : n / 10 = 0
  · simp only [h, if_true, List.nil_append]
    simp only [Nat.toDigits, Nat.toDigitsCore]
    simp [h]
  · simp only [h, if_false]
    have hlt : n / 10 < n := Nat.div_lt_self hn (by norm_num)
    show Nat.toDigitsCore 10 (n + 1) n [] = _
    simp only [Nat.toDigitsCore]
    simp only [h, if_false]
    rw [toDigitsCore_append]
    congr 1
    exact toDigitsCore_fuel_irrel (n / 10) n (n / 10 + 1) (by omega) (by omega)

/-- The bytes produced by the source's digit loop are exactly the bytes of the
standard decimal rendering of `n`, provided the 20-digit buffer is large
enough (`n < 10 ^ fuel`). -/
theorem digitsLoopF_eq_toDigits :
    ∀ (fuel n : Nat) (acc : List Nat), 0 < n → n < 10 ^ fuel →
      digitsLoopF fuel n acc = (Nat.toDigits 10 n).map Char.toNat ++ acc := by
  intro fuel
  induction fuel with
  | zero => intro n acc hn hlt; omega
  | succ f ih =>
    intro n acc hn hlt
    have hne : ¬ n = 0 := by omega
    simp only [digitsLoopF, hne, if_false]
    by_cases h : n / 10 = 0
    · rw [h, digitsLoopF_zero]
      rw [toDigits_unfold n hn, h, if_pos rfl]
      have hn10 : n < 10 := by
        rcases Nat.lt_or_ge n 10 with h10 | h10
        · exact h10
        · exact absurd h (by
            have : 0 < n / 10 := Nat.div_pos h10 (by norm_num)
            omega)
      have hmod : n % 10 = n := Nat.mod_eq_of_lt hn10
      simp [hmod, digitChar_toNat hn10]
    · have hpos : 0 < n / 10 := Nat.pos_of_ne_zero h
      have hbound : n / 10 < 10 ^ f := by
        have := (Nat.div_lt_iff_lt_mul (by norm_num : 0 < 10)).mpr
          (by rw [← pow_succ]; exact hlt)
        exact this
      rw [ih (n / 10) ((48 + n % 10) :: acc) hpos hbound]
      rw [toDigits_unfold n hn, if_neg h]
      simp [digitChar_toNat (by omega : n % 10 < 10)]

theorem digitsLoop_eq_repr (n : Nat) (h0 : 0 < n) (hlt : n < 10 ^ 20) :
    digitsLoop n [] = strBytes (Nat.repr n) := by
  rw [digitsLoop, digitsLoopF_eq_toDigits 20 n [] h0 hlt]
  simp [Nat.repr, strBytes, List.asString, String.toList]

theorem wrap64_eq_self {x : Int} (h1 : -(2 ^ 63) ≤ x) (h2 : x < 2 ^ 63) :
    wrap64 x = x := by
  unfold wrap64
  rw [Int.emod_eq_of_lt (by omega) (by omega)]
  omega

theorem wrap64_min : wrap64 (2 ^ 63) = -(2 ^ 63) := by decide

/-- `appendInt` renders every `int64` value except `math.MinInt64` as its
standard decimal representation; at `math.MinInt64` the Go negation wraps
to itself, the digit loop is skipped, and the output is the lone byte `'-'`. -/
theorem appendInt_eq_stdDecimal (buf : List Nat) (v : Int)
    (hlo : -(2 ^ 63) < v) (hhi : v < 2 ^ 63) :
    appendInt buf v = buf ++ stdDecimal v := by
  rcases lt_trichotomy v 0 with hneg | hzero | hpos
  · have hne : ¬ v = 0 := by omega
    simp only [appendInt, hne, if_false, hneg, if_pos]
    have hw : wrap64 (-v) = -v := wrap64_eq_self (by omega) (by omega)
    rw [hw]
    obtain ⟨m, rfl⟩ : ∃ m : Nat, v = Int.negSucc m := by
      match v, hneg with
      | Int.negSucc m, _ => exact ⟨m, rfl⟩
    have hv : Int.negSucc m = -((m : Int) + 1) := Int.negSucc_eq m
    have htoNat : (-(Int.negSucc m)).toNat = m + 1 := by
      rw [hv, neg_neg]
      exact_mod_cast Int.toNat_natCast (m + 1)
    rw [htoNat]
    have hm1 : (m : Int) + 1 < 2 ^ 63 := by rw [hv] at hlo; omega
    have hmn : m + 1 < 10 ^ 20 := by
      have h10 : (2 : Int) ^ 63 < 10 ^ 20 := by norm_num
      exact_mod_cast hm1.trans h10
    rw [digitsLoop_eq_repr (m + 1) (by omega) hmn]
    have hstd : stdDecimal (Int.negSucc m) = 45 :: strBytes (Nat.repr (m + 1)) := by
      show strBytes (Int.repr (Int.negSucc m)) = _
      show strBytes ("-" ++ Nat.repr (m + 1)) = _
      simp [strBytes, String.toList]
    rw [hstd]
    simp
  · subst hzero
    simp only [appendInt, if_pos rfl]
    rfl
  · have hne : ¬ v = 0 := by omega
    have hnlt : ¬ v < 0 := by omega
    simp only [appendInt, hne, if_false, hnlt]
    obtain ⟨n, rfl⟩ : ∃ n : Nat, v = (n : Int) := ⟨v.toNat, (Int.toNat_of_nonneg (by omega)).symm⟩
    have hn0 : 0 < n := by exact_mod_cast hpos
    have hnb : n < 10 ^ 20 := by
      have h1 : (n : Int) < 2 ^ 63 := hhi
      have h2 : (2 : Int) ^ 63 < 10 ^ 20 := by norm_num
      exact_mod_cast h1.trans h2
    rw [Int.toNat_natCast, digitsLoop_eq_repr n hn0 hnb]
    congr 1

/- ### Append-homomorphism lemmas for the encoders -/

theorem digitsLoopF_append (fuel : Nat) :
    ∀ (n : Nat) (acc : List Nat), digitsLoopF fuel n acc = digitsLoopF fuel n [] ++ acc := by
  induction fuel with
  | zero => intro n acc; simp [digitsLoopF]
  | succ f ih =>
    intro n acc
    by_cases h : n = 0
    · simp [digitsLoopF, h]
    · simp only [digitsLoopF, h, if_false]
      rw [ih (n / 10) ((48 + n % 10) :: acc), ih (n / 10) [48 + n % 10]]
      simp

theorem appendInt_append (buf : List Nat) (i : Int) :
    appendInt buf i = buf ++ appendInt [] i := by
  unfold appendInt
  by_cases h0 : i = 0
  · simp [h0]
  · by_cases hn : i < 0 <;> simp [h0, hn]

theorem appendJSONFloat_append (buf : List Nat) (f : Rat) :
    appendJSONFloat buf f = buf ++ appendJSONFloat [] f := by
  unfold appendJSONFloat
  by_cases h0 : f = 0
  · simp [h0]
  · simp only [h0, if_false]
    by_cases hn : f < 0
    · simp only [hn, if_true]
      split_ifs with hf
      · rw [appendInt_append (appendInt (buf ++ [45]) (ratTrunc (-f)) ++ [46]),
          appendInt_append (buf ++ [45]),
          appendInt_append (appendInt ([] ++ [45]) (ratTrunc (-f)) ++ [46]),
          appendInt_append ([] ++ [45])]
        simp
      · rw [appendInt_append (buf ++ [45]), appendInt_append ([] ++ [45])]
        simp
    · simp only [hn, if_false]
      split_ifs with hf
      · rw [appendInt_append (appendInt buf (ratTrunc f) ++ [46]),
          appendInt_append buf,
          appendInt_append (appendInt [] (ratTrunc f) ++ [46])]
        simp
      · exact appendInt_append buf (ratTrunc f)

theorem appendJSONString_eq (s : List Nat) :
    ∀ buf, appendJSONString buf s = buf ++ escStr s := by
  induction s with
  | nil => intro buf; simp [appendJSONString, escStr]
  | cons r rest ih =>
    intro buf
    simp only [appendJSONString, escStr]
    rw [ih]
    unfold escByte
    split_ifs <;> simp

theorem appendValue_append (buf : List Nat) (v : Value) :
    appendValue buf v = buf ++ appendValue [] v := by
  cases v with
  | str s =>
    by_cases h : needsQuoting s <;> simp [appendValue, h]
  | int i =>
    simp only [appendValue]
    exact appendInt_append buf i
  | float f =>
    simp only [appendValue]
    exact appendJSONFloat_append buf f
  | bool b => simp [appendValue]
  | other => simp [appendValue]

theorem appendJSONValue_append (buf : List Nat) (v : Value) :
    appendJSONValue buf v = buf ++ appendJSONValue [] v := by
  cases v with
  | str s => simp [appendJSONValue, appendJSONString_eq]
  | int i =>
    simp only [appendJSONValue]
    exact appendInt_append buf i
  | float f =>
    simp only [appendJSONValue]
    exact appendJSONFloat_append buf f
  | bool b => simp [appendJSONValue]
  | other => simp [appendJSONValue, appendJSONString_eq]

/- ### C1: integer encoding -/

/-- C1: `appendInt` appends the standard base-10 decimal representation for
every `int64` value except `math.MinInt64`.  At `math.MinInt64` the Go
negation `i = -i` wraps back to `math.MinInt64`, the digit loop is skipped,
and the function appends the lone byte `'-'` — not the standard decimal
text of the value.  (Claim C1, which asserts the standard rendering for
the extreme values too, therefore fails at exactly this input.) -/
theorem appendIntDecimal :
    (∀ (buf : List Nat) (v : Int), -(2 ^ 63) < v → v < 2 ^ 63 →
        appendInt buf v = buf ++ stdDecimal v) ∧
    appendInt [] (-(2 ^ 63)) = [45] ∧
    appendInt [] (-(2 ^ 63)) ≠ stdDecimal (-(2 ^ 63)) := by
  refine ⟨fun buf v h1 h2 => appendInt_eq_stdDecimal buf v h1 h2, by decide, by decide⟩

/-- Witness for C1's universally quantified part at a concrete input. -/
theorem appendIntDecimal_witness :
    appendInt [] (-42) = [] ++ stdDecimal (-42) :=
  appendIntDecimal.1 [] (-42) (by decide) (by decide)

/- ### C2: the unknown-type placeholder -/

/-- C2 (counterexample): in text mode an unsupported value is NOT encoded
as the unquoted literal `unknown`; the source's `default` arm wraps the
placeholder in double quotes unconditionally. -/
theorem unknownPlaceholder_cex :
    appendValue [] Value.other ≠ strBytes "unknown" ∧
    appendValue [] Value.other = [34] ++ strBytes "unknown" ++ [34] := by
  exact ⟨by decide, by decide⟩

/-- C2 (amended): the value encoder never fails on an unsupported type and
appends the placeholder `"unknown"`, quoted in BOTH modes (text mode does
not consult `needsQuoting` for the placeholder; it emits the quotes
directly). -/
theorem unknownPlaceholderQuoted (buf : List Nat) :
    appendValue buf Value.other = (buf ++ [34]) ++ strBytes "unknown" ++ [34] ∧
    appendJSONValue buf Value.other = (buf ++ [34]) ++ strBytes "unknown" ++ [34] := by
  constructor
  · simp [appendValue]
  · simp only [appendJSONValue]
    rw [appendJSONString_eq]
    have h : escStr (strBytes "unknown") = strBytes "unknown" := by decide
    rw [h]

/- ### C10: raw strings in text mode -/

/-- C10: text mode never escapes string field values: a value containing a
space, `=` or `"` is wrapped in double quotes with its bytes emitted
unchanged (an embedded quote appears raw inside the wrapping quotes), a
value without them is emitted bare — and consequently encoding is not
injective: a message that happens to look like a `key="value"` suffix
produces the very same record as a shorter message with that field, so the
record cannot be unambiguously parsed back into its fields. -/
theorem textStringsRawAmbiguous :
    (∀ (buf s : List Nat), needsQuoting s = true →
        appendValue buf (Value.str s) = ((buf ++ [34]) ++ s) ++ [34]) ∧
    (∀ (buf s : List Nat), needsQuoting s = false →
        appendValue buf (Value.str s) = buf ++ s) ∧
    (∀ (now : GoTime) (lvl : Int),
        appendText now [] lvl (strBytes "m k=\"a b\"") [] =
          appendText now [] lvl (strBytes "m")
            [{ key := strBytes "k", value := Value.str (strBytes "a b") }]) ∧
    strBytes "m k=\"a b\"" ≠ strBytes "m" := by
  refine ⟨?_, ?_, ?_, by decide⟩
  · intro buf s h; simp [appendValue, h]
  · intro buf s h; simp [appendValue, h]
  · intro now lvl
    simp only [appendText, List.foldl, textFieldF]
    rw [appendValue_append]
    have hq : needsQuoting (strBytes "a b") = true := by decide
    simp only [appendValue, hq, if_true, List.nil_append]
    have hc : strBytes "m k=\"a b\"" =
        strBytes "m" ++ [32] ++ strBytes "k" ++ [61] ++
          (([34] ++ strBytes "a b") ++ [34]) := by decide
    rw [hc]
    simp [List.append_assoc]

/-- Witness for C10's hypotheses at concrete strings. -/
theorem textStringsRawAmbiguous_witness :
    appendValue [] (Value.str (strBytes "a b")) = (([] ++ [34]) ++ strBytes "a b") ++ [34] :=
  textStringsRawAmbiguous.1 [] (strBytes "a b") (by decide)

/- ### C8: level filtering is a complete no-op -/

/-- C8: a log call whose level is strictly below the configured minimum
returns the state unchanged — no sink write, no accumulation-buffer change
— and acquires zero scratch buffers from the pool. -/
theorem levelFilterNoOp (cfg : Config) (now : GoTime) (st : LogState) (lvl : Int)
    (msg : List Nat) (fields : List Field) (h : lvl < cfg.level) :
    log cfg now st lvl msg fields = (st, 0) := by
  simp [log, h]

/-- Witness: a Debug call against an Info threshold is a no-op. -/
theorem levelFilterNoOp_witness :
    log { level := InfoLevel, format := Format.text, bufferSize := 0, useUTC := false }
        { sec := 0, nsec := 0, offsetMin := 0 }
        { buffer := [], sink := [], pool := [] } DebugLevel [] [] =
      ({ buffer := [], sink := [], pool := [] }, 0) :=
  levelFilterNoOp _ _ _ _ _ _ (by decide)

/- ### C9: explicit flush semantics -/

/-- C9: in buffered mode `Flush` writes the full accumulation buffer to the
sink and resets it exactly when it is non-empty, performs zero sink writes
when it is empty, is a no-op in unbuffered mode, and is idempotent. -/
theorem flushSemantics (cfg : Config) (st : LogState) :
    (0 < cfg.bufferSize → 0 < st.buffer.length →
        Flush cfg st = { st with sink := st.sink ++ [st.buffer], buffer := [] }) ∧
    (0 < cfg.bufferSize → st.buffer = [] → Flush cfg st = st) ∧
    (¬ 0 < cfg.bufferSize → Flush cfg st = st) ∧
    Flush cfg (Flush cfg st) = Flush cfg st := by
  refine ⟨?_, ?_, ?_, ?_⟩
  · intro hb hne; simp [Flush, flush, hb, hne]
  · intro hb he; simp [Flush, flush, hb, he]
  · intro hb; simp [Flush, hb]
  · by_cases hb : 0 < cfg.bufferSize
    · by_cases hne : 0 < st.buffer.length
      · simp [Flush, flush, hb, hne]
      · simp [Flush, flush, hb, hne]
    · simp [Flush, hb]

/-- Witness: flushing one buffered byte delivers it and empties the buffer. -/
theorem flushSemantics_witness :
    Flush { level := 0, format := Format.text, bufferSize := 8, useUTC := false }
        { buffer := [97], sink := [], pool := [] } =
      { buffer := [], sink := [] ++ [[97]], pool := [] } :=
  (flushSemantics _ _).1 (by decide) (by decide)

/- ### C5: buffered delivery -/

/-- C5: with buffering enabled, a delivery that fits appends the record and
a newline to the accumulation buffer; one that would overflow the capacity
flushes the (non-empty) accumulation to the sink first and starts the
buffer afresh with the record; the full record plus newline is always a
suffix of the resulting buffer (never truncated, even when larger than the
capacity); and the concrete capacity-50 scenario behaves as specified. -/
theorem bufferedDelivery (cfg : Config) (st : LogState) (rec : List Nat)
    (hb : 0 < cfg.bufferSize) :
    ((st.buffer.length : Int) + rec.length ≤ cfg.bufferSize →
        write cfg st rec = { st with buffer := (st.buffer ++ rec) ++ [10] }) ∧
    (cfg.bufferSize < (st.buffer.length : Int) + rec.length → 0 < st.buffer.length →
        write cfg st rec =
          { st with sink := st.sink ++ [st.buffer], buffer := ([] ++ rec) ++ [10] }) ∧
    List.IsSuffix (rec ++ [10]) (write cfg st rec).buffer ∧
    (write { level := 0, format := Format.text, bufferSize := 50, useUTC := false }
        { buffer := [], sink := [], pool := [] } (List.replicate 40 97) =
      { buffer := (List.replicate 40 97) ++ [10], sink := [], pool := [] } ∧
     (List.replicate 40 97 ++ [10]).length = 41 ∧
     write { level := 0, format := Format.text, bufferSize := 50, useUTC := false }
        { buffer := List.replicate 40 97 ++ [10], sink := [], pool := [] }
        (List.replicate 40 98) =
      { buffer := (List.replicate 40 98) ++ [10],
        sink := [List.replicate 40 97 ++ [10]], pool := [] }) := by
  refine ⟨?_, ?_, ?_, by decide, by decide, by decide⟩
  · intro hle
    have hnlt : ¬ cfg.bufferSize < (st.buffer.length : Int) + rec.length := by omega
    simp [write, hb, hnlt]
  · intro hgt hne
    simp [write, flush, hb, hgt, hne]
  · simp only [write, hb, if_true]
    split_ifs with h
    · exact ⟨(flush st).buffer, by simp⟩
    · exact ⟨st.buffer, by simp⟩

/-- Witness: a fitting record is appended with its newline. -/
theorem bufferedDelivery_witness :
    write { level := 0, format := Format.text, bufferSize := 50, useUTC := false }
        { buffer := [], sink := [], pool := [] } (List.replicate 40 97) =
      { buffer := ([] ++ List.replicate 40 97) ++ [10], sink := [], pool := [] } :=
  (bufferedDelivery _ _ _ (by decide)).1 (by decide)

/- ### C3: scratch-buffer return -/

/-- C3 (counterexample): a log call whose encoding outgrows the acquired
scratch buffer does NOT return the grown buffer to the pool.  With one idle
2-byte buffer and a 33-byte record, the encoding grows a buffer of capacity
33, yet the pool afterwards holds the original buffer with capacity 2 —
because `defer l.pool.Put(buf)` captured the slice before the appends. -/
theorem scratchPoolGrowthNotRetained_cex :
    (log { level := 0, format := Format.text, bufferSize := 0, useUTC := false }
        { sec := 0, nsec := 0, offsetMin := 0 }
        { buffer := [], sink := [], pool := [{ cap := 2, data := [7, 7] }] }
        0 (strBytes "abc") []).1.pool = [{ cap := 2, data := [] }] ∧
    (bufAppend { cap := 2, data := [] }
        (appendText { sec := 0, nsec := 0, offsetMin := 0 } [] 0 (strBytes "abc") [])).cap = 33 ∧
    (2 : Nat) ≠ 33 := by
  exact ⟨by decide, by decide, by decide⟩

/-- C3 (amended): whenever a log call passes the level gate, the buffer
appended back to the pool is reset to empty length and carries exactly the
capacity it was acquired with — never shrunk, but growth during encoding is
not retained either, since the deferred `Put` captured the pre-encoding
slice. -/
theorem scratchPoolReturn (cfg : Config) (now : GoTime) (st : LogState) (lvl : Int)
    (msg : List Nat) (fields : List Field) (h : ¬ lvl < cfg.level) :
    (log cfg now st lvl msg fields).1.pool =
      (poolGet st.pool).2 ++ [{ cap := (poolGet st.pool).1.cap, data := [] }] := by
  have hw : ∀ (c : Config) (s : LogState) (b : List Nat), (write c s b).pool = s.pool := by
    intro c s b
    unfold write flush
    split_ifs <;> rfl
  simp [log, h, hw]

/-- Witness: with an idle capacity-2 buffer, the pool receives it back at
capacity 2 and empty length. -/
theorem scratchPoolReturn_witness :
    (log { level := 0, format := Format.text, bufferSize := 0, useUTC := false }
        { sec := 0, nsec := 0, offsetMin := 0 }
        { buffer := [], sink := [], pool := [{ cap := 2, data := [7, 7] }] }
        0 (strBytes "abc") []).1.pool =
      (poolGet [{ cap := 2, data := [7, 7] }]).2 ++
        [{ cap := (poolGet [{ cap := 2, data := [7, 7] }]).1.cap, data := [] }] :=
  scratchPoolReturn _ _ _ _ _ _ (by decide)

/- ### Digit-list and layout-shape lemmas -/

theorem digitsLoopF_digits (fuel : Nat) :
    ∀ (n : Nat) (acc : List Nat), (∀ b ∈ acc, isDigit b = true) →
      ∀ b ∈ digitsLoopF fuel n acc, isDigit b = true := by
  induction fuel with
  | zero => intro n acc hacc; simpa [digitsLoopF] using hacc
  | succ f ih =>
    intro n acc hacc
    by_cases h0 : n = 0
    · simpa [digitsLoopF, h0] using hacc
    · simp only [digitsLoopF, h0, if_false]
      apply ih
      intro b hb
      rcases List.mem_cons.mp hb with hb | hb
      · subst hb
        have : n % 10 < 10 := Nat.mod_lt _ (by norm_num)
        simp [isDigit]
        omega
      · exact hacc b hb

theorem digitsLoop_length_le (n w : Nat) (hw : 0 < w) (hw20 : w ≤ 20) (h : n < 10 ^ w) :
    (digitsLoop n []).length ≤ w := by
  by_cases h0 : n = 0
  · simp [digitsLoop, digitsLoopF_zero, h0]
  · have h20 : n < 10 ^ 20 := lt_of_lt_of_le h (Nat.pow_le_pow_right (by norm_num) hw20)
    rw [digitsLoop, digitsLoopF_eq_toDigits 20 n [] (Nat.pos_of_ne_zero h0) h20]
    simp only [List.append_nil, List.length_map]
    exact Nat.toDigitsCore_length 10 (by norm_num) (n + 1) n w h hw

theorem padNat_length (w n : Nat) (hw : 0 < w) (hw20 : w ≤ 20) (h : n < 10 ^ w) :
    (padNat w n).length = w := by
  have hle := digitsLoop_length_le n w hw hw20 h
  simp only [padNat, List.length_append, List.length_replicate]
  omega

theorem padNat_digits (w n : Nat) : ∀ b ∈ padNat w n, isDigit b = true := by
  intro b hb
  unfold padNat at hb
  rcases List.mem_append.mp hb with h | h
  · have : b = 48 := List.eq_of_mem_replicate h
    subst this
    decide
  · exact digitsLoopF_digits 20 n [] (by simp) b h

theorem getLast?_all_digits {l : List Nat} (hne : l ≠ [])
    (hd : ∀ b ∈ l, isDigit b = true) :
    ∃ d, l.getLast? = some d ∧ isDigit d = true := by
  refine ⟨l.getLast hne, ?_, hd _ (List.getLast_mem hne)⟩
  exact List.getLast?_eq_getLast l hne

theorem zoneBytes_zero : zoneBytes 0 = [90] := rfl

theorem zoneBytes_getLast_ne (off : Int) (h : off ≠ 0) :
    ∃ d, (zoneBytes off).getLast? = some d ∧ isDigit d = true := by
  have hmod : ((if off < 0 then -off else off).toNat) % 60 < 10 ^ 2 :=
    lt_of_lt_of_le (Nat.mod_lt _ (by norm_num)) (by norm_num)
  have hlen : (padNat 2 (((if off < 0 then -off else off).toNat) % 60)).length = 2 :=
    padNat_length 2 _ (by norm_num) (by norm_num) hmod
  have hne : padNat 2 (((if off < 0 then -off else off).toNat) % 60) ≠ [] := by
    intro hc
    rw [hc] at hlen
    simp at hlen
  obtain ⟨d, hd, hdig⟩ := getLast?_all_digits hne (padNat_digits 2 _)
  refine ⟨d, ?_, hdig⟩
  simp only [zoneBytes, h, if_false]
  have hsplit :
      (if off < 0 then 45 else 43) ::
          (padNat 2 (((if off < 0 then -off else off).toNat) / 60) ++ [58] ++
            padNat 2 (((if off < 0 then -off else off).toNat) % 60)) =
        ((if off < 0 then 45 else 43) ::
            (padNat 2 (((if off < 0 then -off else off).toNat) / 60) ++ [58])) ++
          padNat 2 (((if off < 0 then -off else off).toNat) % 60) := by
    simp
  rw [hsplit, List.getLast?_append, hd]
  rfl

theorem fmtNano_getLast (t : GoTime) :
    (fmtNano t).getLast? = some 90 ↔ t.offsetMin = 0 := by
  have hassoc : fmtNano t = (dateTimeBytes t ++ nanoFrac t.nsec) ++ zoneBytes t.offsetMin := by
    simp [fmtNano, List.append_assoc]
  rw [hassoc, List.getLast?_append]
  by_cases h : t.offsetMin = 0
  · simp [h, zoneBytes_zero]
  · obtain ⟨d, hd, hdig⟩ := zoneBytes_getLast_ne t.offsetMin h
    rw [hd]
    simp only [Option.or]
    constructor
    · intro he
      exfalso
      have : d = 90 := by injection he
      subst this
      simp [isDigit] at hdig
    · intro h0
      exact absurd h0 h

/- ### Fold decomposition lemmas -/

theorem foldl_append_of_step (F : List Nat → Field → List Nat)
    (hF : ∀ buf f, F buf f = buf ++ F [] f) :
    ∀ (fields : List Field) (buf : List Nat),
      List.foldl F buf fields = buf ++ List.foldl F [] fields := by
  intro fields
  induction fields with
  | nil => intro buf; simp
  | cons f fs ih =>
    intro buf
    simp only [List.foldl]
    rw [ih (F buf f), ih (F [] f), hF buf f]
    simp

theorem textFieldF_append (buf : List Nat) (f : Field) :
    textFieldF buf f = buf ++ textFieldF [] f := by
  unfold textFieldF
  rw [appendValue_append, appendValue_append (([] ++ [32]) ++ f.key ++ [61])]
  simp

theorem jsonFieldF_append (buf : List Nat) (f : Field) :
    jsonFieldF buf f = buf ++ jsonFieldF [] f := by
  unfold jsonFieldF
  rw [appendJSONString_eq f.key (buf ++ [44, 34]), appendJSONString_eq f.key ([] ++ [44, 34]),
    appendJSONValue_append (((buf ++ [44, 34]) ++ escStr f.key) ++ [34, 58]),
    appendJSONValue_append ((([] ++ [44, 34]) ++ escStr f.key) ++ [34, 58])]
  simp

/- ### C7: timestamp layouts and time-zone handling -/

/-- C7: the text-mode timestamp is rendered in UTC — the record is
independent of the sampled time's zone offset and of any configuration —
with millisecond precision (exactly three fractional digits) and a literal
`Z` marker; the JSON-mode timestamp uses the nanosecond-precision RFC3339
layout and honors the configuration's UTC/local choice: the rendered zone
suffix is `Z` exactly when the chosen time's offset is zero, and the
nanosecond layout distinguishes instants one nanosecond apart while the
millisecond layout cannot see sub-millisecond differences. -/
theorem timestampModes (cfg : Config) (now : GoTime) (lvl : Int) (msg : List Nat)
    (fields : List Field) :
    (∀ z : Int, appendText now [] lvl msg fields =
        appendText { now with offsetMin := z } [] lvl msg fields) ∧
    (∃ rest, appendText now [] lvl msg fields = fmtMilli now.utc ++ rest) ∧
    (now.nsec < 1000000000 →
      ∃ p a b c, isDigit a = true ∧ isDigit b = true ∧ isDigit c = true ∧
        fmtMilli now.utc = p ++ [46, a, b, c, 90]) ∧
    (∀ n' : Nat, now.nsec / 1000000 = n' / 1000000 →
        fmtMilli now.utc = fmtMilli { GoTime.utc now with nsec := n' }) ∧
    (∃ rest, appendJSON cfg now [] lvl msg fields =
        ([123] ++ strBytes "\"timestamp\":\"") ++
          fmtNano (if cfg.useUTC then now.utc else now) ++ ([34] ++ rest)) ∧
    ((fmtNano (if cfg.useUTC then now.utc else now)).getLast? = some 90 ↔
        (if cfg.useUTC then now.utc else now).offsetMin = 0) ∧
    fmtNano { sec := 0, nsec := 1, offsetMin := 0 } ≠
      fmtNano { sec := 0, nsec := 2, offsetMin := 0 } := by
  refine ⟨?_, ?_, ?_, ?_, ?_, fmtNano_getLast _, by decide⟩
  · intro z
    rfl
  · refine ⟨[32] ++ levelString lvl ++ [32] ++ msg ++ List.foldl textFieldF [] fields, ?_⟩
    simp only [appendText]
    rw [foldl_append_of_step textFieldF textFieldF_append fields]
    simp [List.append_assoc]
  · intro hns
    have hm : now.nsec / 1000000 < 10 ^ 3 := by omega
    have hlen : (padNat 3 (now.nsec / 1000000)).length = 3 :=
      padNat_length 3 _ (by norm_num) (by norm_num) hm
    obtain ⟨a, b, c, habc⟩ := List.length_eq_three.mp hlen
    refine ⟨dateTimeBytes now.utc, a, b, c, ?_, ?_, ?_, ?_⟩
    · exact padNat_digits 3 _ a (by rw [habc]; simp)
    · exact padNat_digits 3 _ b (by rw [habc]; simp)
    · exact padNat_digits 3 _ c (by rw [habc]; simp)
    · show dateTimeBytes now.utc ++ milliFrac now.utc.nsec ++ zoneBytes now.utc.offsetMin = _
      have : now.utc.nsec = now.nsec := rfl
      rw [this, milliFrac, habc]
      simp [GoTime.utc, zoneBytes_zero]
  · intro n' h
    have h2 : now.utc.nsec / 1000000 = n' / 1000000 := h
    simp [fmtMilli, milliFrac, dateTimeBytes, h2]
  · refine ⟨strBytes ",\"level\":\"" ++ levelString lvl ++ [34] ++ strBytes ",\"message\":\"" ++
      escStr msg ++ [34] ++ List.foldl jsonFieldF [] fields ++ [125], ?_⟩
    simp only [appendJSON]
    rw [foldl_append_of_step jsonFieldF jsonFieldF_append fields, appendJSONString_eq]
    simp [List.append_assoc]

/-- Witness for C7's hypotheses at a concrete time with a nonzero
sub-second part. -/
theorem timestampModes_witness :
    ∃ p a b c, isDigit a = true ∧ isDigit b = true ∧ isDigit c = true ∧
      fmtMilli (GoTime.utc { sec := 0, nsec := 123456789, offsetMin := 120 }) =
        p ++ [46, a, b, c, 90] :=
  (timestampModes { level := 0, format := Format.json, bufferSize := 0, useUTC := false }
      { sec := 0, nsec := 123456789, offsetMin := 120 } 0 [] []).2.2.1 (by decide)

/- ### JSON string-body parsing versus the encoder's escaping -/

theorem psb_quote (tail : List Nat) : parseStringBody (34 :: tail) = some ([], tail) := by
  rw [parseStringBody.eq_def]
  simp

theorem psb_escape (e c : Nat) (tail : List Nat) (he : unescapeByte e = some c) :
    parseStringBody (92 :: e :: tail) = (parseStringBody tail).map (fun p => (c :: p.1, p.2)) := by
  rw [parseStringBody.eq_def]
  simp [he]

theorem psb_raw (b : Nat) (tail : List Nat) (h32 : 32 ≤ b) (h34 : b ≠ 34) (h92 : b ≠ 92) :
    parseStringBody (b :: tail) = (parseStringBody tail).map (fun p => (b :: p.1, p.2)) := by
  rw [parseStringBody.eq_def]
  simp [h34, h92, h32]

theorem parseStringBody_esc :
    ∀ (s rest : List Nat), cleanStr s = true →
      parseStringBody (escStr s ++ 34 :: rest) = some (s, rest) := by
  intro s
  induction s with
  | nil =>
    intro rest _
    simpa [escStr] using psb_quote rest
  | cons b bs ih =>
    intro rest h
    have h2 : cleanByte b = true ∧ cleanStr bs = true := by
      simpa [cleanStr, Bool.and_eq_true] using h
    rcases h2 with ⟨hb, hbs⟩
    have hshape : escStr (b :: bs) ++ 34 :: rest = escByte b ++ (escStr bs ++ 34 :: rest) := by
      simp [escStr]
    rw [hshape]
    by_cases e34 : b = 34
    · subst e34
      show parseStringBody (92 :: 34 :: (escStr bs ++ 34 :: rest)) = _
      rw [psb_escape 34 34 _ (by decide), ih rest hbs]
      rfl
    · by_cases e92 : b = 92
      · subst e92
        show parseStringBody (92 :: 92 :: (escStr bs ++ 34 :: rest)) = _
        rw [psb_escape 92 92 _ (by decide), ih rest hbs]
        rfl
      · by_cases e10 : b = 10
        · subst e10
          show parseStringBody (92 :: 110 :: (escStr bs ++ 34 :: rest)) = _
          rw [psb_escape 110 10 _ (by decide), ih rest hbs]
          rfl
        · by_cases e13 : b = 13
          · subst e13
            show parseStringBody (92 :: 114 :: (escStr bs ++ 34 :: rest)) = _
            rw [psb_escape 114 13 _ (by decide), ih rest hbs]
            rfl
          · by_cases e9 : b = 9
            · subst e9
              show parseStringBody (92 :: 116 :: (escStr bs ++ 34 :: rest)) = _
              rw [psb_escape 116 9 _ (by decide), ih rest hbs]
              rfl
            · have hB : escByte b = [b] := by
                simp [escByte, e34, e92, e10, e13, e9]
              have h32 : 32 ≤ b := by
                simp only [cleanByte, Bool.and_eq_true, Bool.or_eq_true, decide_eq_true_eq,
                  beq_iff_eq] at hb
                rcases hb.2 with h | h | h | h <;> omega
              rw [hB]
              show parseStringBody (b :: (escStr bs ++ 34 :: rest)) = _
              rw [psb_raw b _ h32 e34 e92, ih rest hbs]
              rfl

/-- Raw insertion: bytes that need no escaping pass `escStr` unchanged. -/
theorem escStr_id (l : List Nat) (h : ∀ b ∈ l, b ≠ 34 ∧ b ≠ 92 ∧ b ≠ 10 ∧ b ≠ 13 ∧ b ≠ 9) :
    escStr l = l := by
  induction l with
  | nil => rfl
  | cons b bs ih =>
    have hb := h b (by simp)
    have hB : escByte b = [b] := by
      simp [escByte, hb.1, hb.2.1, hb.2.2.1, hb.2.2.2.1, hb.2.2.2.2]
    simp only [escStr, hB]
    rw [ih (fun x hx => h x (by simp [hx]))]
    rfl

/- ### Raw-byte range lemmas for the timestamp and level name -/

theorem padNat_range (w n : Nat) : ∀ b ∈ padNat w n, 48 ≤ b ∧ b ≤ 57 := by
  intro b hb
  have := padNat_digits w n b hb
  simp only [isDigit, Bool.and_eq_true, decide_eq_true_eq] at this
  exact this

theorem padInt_range (w : Nat) (i : Int) : ∀ b ∈ padInt w i, 45 ≤ b ∧ b ≤ 57 := by
  intro b hb
  unfold padInt at hb
  split_ifs at hb
  · rcases List.mem_cons.mp hb with h | h
    · subst h; omega
    · have := padNat_range w _ b h; omega
  · have := padNat_range w _ b hb; omega

theorem zoneBytes_range (off : Int) : ∀ b ∈ zoneBytes off, 43 ≤ b ∧ b ≤ 90 := by
  intro b hb
  by_cases h0 : off = 0
  · subst h0
    simp [zoneBytes] at hb
    omega
  · have hb2 : b ∈ (if off < 0 then 45 else 43) ::
        (padNat 2 (((if off < 0 then -off else off).toNat) / 60) ++ [58] ++
          padNat 2 (((if off < 0 then -off else off).toNat) % 60)) := by
      simpa [zoneBytes, h0] using hb
    rcases List.mem_cons.mp hb2 with h | h
    · split_ifs at h <;> omega
    · rcases List.mem_append.mp h with h | h
      · rcases List.mem_append.mp h with h | h
        · have := padNat_range 2 _ b h; omega
        · simp at h; omega
      · have := padNat_range 2 _ b h; omega

theorem dateTimeBytes_range (t : GoTime) : ∀ b ∈ dateTimeBytes t, 45 ≤ b ∧ b ≤ 90 := by
  intro b hb
  unfold dateTimeBytes at hb
  simp only [List.append_assoc, List.mem_append, List.mem_singleton] at hb
  rcases hb with h | h | h | h | h | h | h | h | h | h | h
  · have := padInt_range 4 _ b h; omega
  · subst h; omega
  · have := padInt_range 2 _ b h; omega
  · subst h; omega
  · have := padInt_range 2 _ b h; omega
  · subst h; omega
  · have := padNat_range 2 _ b h; omega
  · subst h; omega
  · have := padNat_range 2 _ b h; omega
  · subst h; omega
  · have := padNat_range 2 _ b h; omega

theorem nanoFrac_range (nsec : Nat) : ∀ b ∈ nanoFrac nsec, 46 ≤ b ∧ b ≤ 57 := by
  intro b hb
  unfold nanoFrac at hb
  split_ifs at hb with h0
  · simp at hb
  · rcases List.mem_cons.mp hb with h | h
    · subst h; omega
    · have h1 : b ∈ (padNat 9 nsec).reverse.dropWhile (fun x => x == 48) := by
        simpa using h
      have h2 : b ∈ (padNat 9 nsec).reverse := (List.dropWhile_sublist _).mem h1
      have h3 : b ∈ padNat 9 nsec := by simpa using h2
      have := padNat_range 9 nsec b h3
      omega

theorem fmtNano_range (t : GoTime) : ∀ b ∈ fmtNano t, 43 ≤ b ∧ b ≤ 90 := by
  intro b hb
  unfold fmtNano at hb
  rcases List.mem_append.mp hb with h | h
  · rcases List.mem_append.mp h with h | h
    · have := dateTimeBytes_range t b h; omega
    · have := nanoFrac_range t.nsec b h; omega
  · exact zoneBytes_range t.offsetMin b h

theorem levelString_range (l : Int) : ∀ b ∈ levelString l, 65 ≤ b ∧ b ≤ 90 := by
  unfold levelString
  split_ifs <;> decide

/-- A byte in the raw range 43..90 needs no escaping and is clean. -/
theorem raw_no_escape {b : Nat} (h : 43 ≤ b ∧ b ≤ 90) :
    b ≠ 34 ∧ b ≠ 92 ∧ b ≠ 10 ∧ b ≠ 13 ∧ b ≠ 9 := by omega

/- ### Number parsing versus the integer and float encoders -/

theorem spanDigits_append (ds : List Nat) :
    ∀ rest, (∀ b ∈ ds, isDigit b = true) →
      (rest = [] ∨ ∃ c r, rest = c :: r ∧ isDigit c = false) →
      spanDigits (ds ++ rest) = (ds, rest) := by
  induction ds with
  | nil =>
    intro rest _ hr
    rcases hr with h | ⟨c, r, rfl, hcd⟩
    · subst h; simp [spanDigits]
    · simp [spanDigits, hcd]
  | cons d ds ih =>
    intro rest hd hr
    have hdd : isDigit d = true := hd d (by simp)
    simp only [List.cons_append, spanDigits, hdd, if_pos, List.append_eq]
    rw [ih rest (fun b hb => hd b (by simp [hb])) hr]

theorem parseFracExp_delim (rest : List Nat) (h : NumDelim rest) :
    parseFracExp rest = some rest := by
  rcases h with h | ⟨c, r, rfl, hcd, h46, h101, h69⟩
  · subst h; simp [parseFracExp]
  · simp [parseFracExp, h46, h101, h69]

/-- The head digit of a positive number's rendering is nonzero, the rest
are digits. -/
theorem digitsLoopF_head (fuel : Nat) :
    ∀ n : Nat, 0 < n → n < 10 ^ fuel →
      ∃ d ds, digitsLoopF fuel n [] = d :: ds ∧ 49 ≤ d ∧ d ≤ 57 ∧
        ∀ b ∈ ds, isDigit b = true := by
  induction fuel with
  | zero => intro n h0 h1; omega
  | succ f ih =>
    intro n h0 h1
    have hne : ¬ n = 0 := by omega
    simp only [digitsLoopF, hne, if_false]
    by_cases hq : n / 10 = 0
    · rw [hq, digitsLoopF_zero]
      have h10 : n < 10 := by
        rcases Nat.lt_or_ge n 10 with h | h
        · exact h
        · exact absurd hq (by have := Nat.div_pos h (by norm_num); omega)
      have hmod : n % 10 = n := Nat.mod_eq_of_lt h10
      exact ⟨48 + n % 10, [], rfl, by omega, by omega, by simp⟩
    · have hb : n / 10 < 10 ^ f :=
        (Nat.div_lt_iff_lt_mul (by norm_num)).mpr (by rw [← pow_succ]; exact h1)
      obtain ⟨d, ds, heq, hd1, hd2, hds⟩ := ih (n / 10) (Nat.pos_of_ne_zero hq) hb
      rw [digitsLoopF_append f (n / 10) ((48 + n % 10) :: [])]
      refine ⟨d, ds ++ [48 + n % 10], by rw [heq]; rfl, hd1, hd2, ?_⟩
      intro b hbmem
      rcases List.mem_append.mp hbmem with h | h
      · exact hds b h
      · have : b = 48 + n % 10 := by simpa using h
        subst this
        have : n % 10 < 10 := Nat.mod_lt _ (by norm_num)
        simp [isDigit]
        omega

/-- `appendInt` of a nonnegative in-range value yields a nonempty digit
string whose head is a digit and is `'0'` only for the value zero. -/
theorem appendInt_nonneg_shape (i : Int) (h0 : 0 ≤ i) (h1 : i < 2 ^ 63) :
    ∃ d ds, appendInt [] i = d :: ds ∧ isDigit d = true ∧ (d = 48 → ds = []) ∧
      ∀ b ∈ ds, isDigit b = true := by
  rcases eq_or_lt_of_le h0 with hz | hpos
  · subst hz
    exact ⟨48, [], by decide, by decide, fun _ => rfl, by simp⟩
  · have hne : ¬ i = 0 := by omega
    have hnlt : ¬ i < 0 := by omega
    have hnat : 0 < i.toNat := by omega
    have hnat20 : i.toNat < 10 ^ 20 := by
      have : (2 : Int) ^ 63 < 10 ^ 20 := by norm_num
      omega
    obtain ⟨d, ds, heq, hd1, hd2, hds⟩ := digitsLoopF_head 20 i.toNat hnat hnat20
    refine ⟨d, ds, ?_, by simp [isDigit]; omega, by omega, hds⟩
    simp only [appendInt, hne, if_false, hnlt, List.nil_append]
    exact heq

theorem parseIntPart_shape (d : Nat) (ds rest : List Nat)
    (hd : isDigit d = true) (hz : d = 48 → ds = [])
    (hds : ∀ b ∈ ds, isDigit b = true)
    (hrest : rest = [] ∨ ∃ c r, rest = c :: r ∧ isDigit c = false) :
    parseIntPart ((d :: ds) ++ rest) = some rest := by
  by_cases h48 : d = 48
  · subst h48
    rw [hz rfl]
    simp [parseIntPart]
  · simp only [List.cons_append, parseIntPart, h48, if_false, hd, if_true]
    rw [spanDigits_append ds rest hds hrest]

/-- A number delimiter does not start with a digit. -/
theorem NumDelim.span (rest : List Nat) (h : NumDelim rest) :
    rest = [] ∨ ∃ c r, rest = c :: r ∧ isDigit c = false := by
  rcases h with h | ⟨c, r, hr, hcd, _, _, _⟩
  · exact Or.inl h
  · exact Or.inr ⟨c, r, hr, hcd⟩

/-- Parsing the rendering of an in-range nonnegative `int64`. -/
theorem parseNumber_nonneg (i : Int) (rest : List Nat) (h0 : 0 ≤ i) (h1 : i < 2 ^ 63)
    (hrest : NumDelim rest) :
    parseNumber (appendInt [] i ++ rest) = some rest := by
  obtain ⟨d, ds, heq, hd, hz, hds⟩ := appendInt_nonneg_shape i h0 h1
  rw [heq]
  have hd45 : ¬ d = 45 := by
    simp only [isDigit, Bool.and_eq_true, decide_eq_true_eq] at hd
    omega
  simp only [List.cons_append, parseNumber, hd45, if_false]
  have := parseIntPart_shape d ds rest hd hz hds hrest.span
  simp only [List.cons_append] at this
  rw [this]
  exact parseFracExp_delim rest hrest

/-- A dot followed by a nonempty digit run and a delimiter parses as the
fraction, leaving the delimiter. -/
theorem parseFracExp_frac (fd rest : List Nat) (hne : fd.isEmpty = false)
    (hfd : ∀ b ∈ fd, isDigit b = true) (hrest : NumDelim rest) :
    parseFracExp (46 :: (fd ++ rest)) = some rest := by
  have hsd := spanDigits_append fd rest hfd hrest.span
  have hne' : fd ≠ [] := by simpa [List.isEmpty_iff] using hne
  rcases hrest with h | ⟨c, r, hr, hcd, h46, h101, h69⟩
  · subst h
    simp only [List.append_nil] at hsd
    simp [parseFracExp, hsd, hne, hne']
  · subst hr
    simp [parseFracExp, hsd, hne, hne', h101, h69]

/-- Parsing the rendering of an integer part followed by a fraction. -/
theorem parseNumber_intFrac (i j : Int) (rest : List Nat)
    (hi0 : 0 ≤ i) (hi1 : i < 2 ^ 63) (hj0 : 0 ≤ j) (hj1 : j < 2 ^ 63)
    (hrest : NumDelim rest) :
    parseNumber ((appendInt [] i ++ [46] ++ appendInt [] j) ++ rest) = some rest := by
  obtain ⟨d, ds, heq, hd, hz, hds⟩ := appendInt_nonneg_shape i hi0 hi1
  obtain ⟨e, es, heq2, he, _, hes⟩ := appendInt_nonneg_shape j hj0 hj1
  have hd45 : ¬ d = 45 := by
    simp only [isDigit, Bool.and_eq_true, decide_eq_true_eq] at hd
    omega
  have hshape : (appendInt [] i ++ [46] ++ appendInt [] j) ++ rest =
      (d :: ds) ++ (46 :: (appendInt [] j ++ rest)) := by
    rw [heq]
    simp
  rw [hshape]
  simp only [List.cons_append, parseNumber, hd45, if_false]
  have hip := parseIntPart_shape d ds (46 :: (appendInt [] j ++ rest)) hd hz hds
      (Or.inr ⟨46, _, rfl, by decide⟩)
  simp only [List.cons_append] at hip
  rw [hip]
  show parseFracExp (46 :: (appendInt [] j ++ rest)) = some rest
  rw [heq2]
  exact parseFracExp_frac (e :: es) rest rfl
    (by
      intro b hb
      rcases List.mem_cons.mp hb with h | h
      · subst h; exact he
      · exact hes b h)
    hrest

/-- A negative in-range value renders as `-` followed by the rendering of
its magnitude. -/
theorem appendInt_neg_eq (i : Int) (h0 : i < 0) (h1 : -(2 ^ 63) < i) :
    appendInt [] i = [45] ++ appendInt [] (-i) := by
  have hne : ¬ i = 0 := by omega
  have hne2 : ¬ -i = 0 := by omega
  have hnlt : ¬ -i < 0 := by omega
  simp only [appendInt, hne, if_false, h0, if_pos, hne2, hnlt]
  rw [wrap64_eq_self (by omega) (by omega)]
  rfl

theorem parseNumber_appendInt (i : Int) (rest : List Nat) (h0 : -(2 ^ 63) < i)
    (h1 : i < 2 ^ 63) (hrest : NumDelim rest) :
    parseNumber (appendInt [] i ++ rest) = some rest := by
  rcases le_or_lt 0 i with hge | hlt
  · exact parseNumber_nonneg i rest hge h1 hrest
  · rw [appendInt_neg_eq i hlt h0]
    obtain ⟨d, ds, heq, hd, hz, hds⟩ := appendInt_nonneg_shape (-i) (by omega) (by omega)
    rw [heq]
    have hshape : ([45] ++ (d :: ds)) ++ rest = 45 :: (d :: (ds ++ rest)) := by simp
    rw [hshape]
    simp only [parseNumber]
    have hip := parseIntPart_shape d ds rest hd hz hds hrest.span
    simp only [List.cons_append] at hip
    simp only [eq_self_iff_true, if_true, hip]
    exact parseFracExp_delim rest hrest

/-- Stripping a leading minus before a digit does not change the parse
beyond the sign. -/
theorem parseNumber_cons45 (d : Nat) (ds rest : List Nat) (hd : isDigit d = true) :
    parseNumber ((45 :: (d :: ds)) ++ rest) = parseNumber ((d :: ds) ++ rest) := by
  have hd45 : ¬ d = 45 := by
    simp only [isDigit, Bool.and_eq_true, decide_eq_true_eq] at hd
    omega
  simp only [List.cons_append, parseNumber, eq_self_iff_true, if_true, hd45, if_false]

/-- Truncation facts for a positive in-range magnitude. -/
theorem ratTrunc_pos_facts (g : Rat) (hg0 : 0 < g) (hg1 : g < (2 : Rat) ^ 63) :
    ratTrunc g = ⌊g⌋ ∧ 0 ≤ ratTrunc g ∧ ratTrunc g < 2 ^ 63 := by
  have hI : ratTrunc g = ⌊g⌋ := if_pos hg0.le
  refine ⟨hI, ?_, ?_⟩
  · rw [hI]
    exact Int.floor_nonneg.mpr hg0.le
  · rw [hI, Int.floor_lt]
    push_cast
    exact hg1

/-- Parsing the positive-magnitude body emitted by `appendJSONFloat`:
integer digits, optionally followed by a dot and the truncated
milli-fraction digits. -/
theorem floatBody_parse (g : Rat) (rest : List Nat) (hg0 : 0 < g) (hg1 : g < (2 : Rat) ^ 63)
    (hrest : NumDelim rest) :
    parseNumber ((if 0 < g - ((ratTrunc g : Int) : Rat) then
        appendInt (appendInt [] (ratTrunc g) ++ [46])
          (ratTrunc ((g - ((ratTrunc g : Int) : Rat)) * 1000))
      else appendInt [] (ratTrunc g)) ++ rest) = some rest := by
  obtain ⟨hI, hI0, hI1⟩ := ratTrunc_pos_facts g hg0 hg1
  have hfr : g - ((ratTrunc g : Int) : Rat) = Int.fract g := by
    rw [hI, Int.self_sub_floor]
  split_ifs with hf
  · have hfr0 : (0 : Rat) ≤ (g - ((ratTrunc g : Int) : Rat)) * 1000 := by
      rw [hfr]
      have := Int.fract_nonneg g
      positivity
    have hJ : ratTrunc ((g - ((ratTrunc g : Int) : Rat)) * 1000) =
        ⌊(g - ((ratTrunc g : Int) : Rat)) * 1000⌋ := if_pos hfr0
    have hJ0 : 0 ≤ ratTrunc ((g - ((ratTrunc g : Int) : Rat)) * 1000) := by
      rw [hJ]
      exact Int.floor_nonneg.mpr hfr0
    have hJ1 : ratTrunc ((g - ((ratTrunc g : Int) : Rat)) * 1000) < 2 ^ 63 := by
      rw [hJ, Int.floor_lt, hfr]
      have h1000 : Int.fract g * 1000 < 1000 := by
        have := Int.fract_lt_one g
        nlinarith [Int.fract_nonneg g]
      have : ((2 ^ 63 : Int) : Rat) = (2 : Rat) ^ 63 := by push_cast; ring
      rw [this]
      have : (1000 : Rat) < (2 : Rat) ^ 63 := by norm_num
      linarith
    rw [appendInt_append (appendInt [] (ratTrunc g) ++ [46])]
    have hshape : ((appendInt [] (ratTrunc g) ++ [46]) ++
          appendInt [] (ratTrunc ((g - ((ratTrunc g : Int) : Rat)) * 1000))) ++ rest =
        (appendInt [] (ratTrunc g) ++ [46] ++
          appendInt [] (ratTrunc ((g - ((ratTrunc g : Int) : Rat)) * 1000))) ++ rest := by
      simp
    rw [hshape]
    exact parseNumber_intFrac (ratTrunc g) _ rest hI0 hI1 hJ0 hJ1 hrest
  · exact parseNumber_nonneg (ratTrunc g) rest hI0 hI1 hrest

/-- Parsing the full float rendering, sign included. -/
theorem parseNumber_appendJSONFloat (f : Rat) (rest : List Nat)
    (h1 : -((2 : Rat) ^ 63) < f) (h2 : f < (2 : Rat) ^ 63) (hrest : NumDelim rest) :
    parseNumber (appendJSONFloat [] f ++ rest) = some rest := by
  by_cases h0 : f = 0
  · subst h0
    have hb : appendJSONFloat [] 0 = appendInt [] 0 := by decide
    rw [hb]
    exact parseNumber_nonneg 0 rest (by norm_num) (by norm_num) hrest
  · simp only [appendJSONFloat, h0, if_false]
    by_cases hn : f < 0
    · simp only [hn, if_true]
      have hg0 : (0 : Rat) < -f := by linarith
      have hg1 : -f < (2 : Rat) ^ 63 := by linarith
      obtain ⟨hI, hI0, hI1⟩ := ratTrunc_pos_facts (-f) hg0 hg1
      have hb : (if 0 < -f - ((ratTrunc (-f) : Int) : Rat) then
            appendInt (appendInt ([] ++ [45]) (ratTrunc (-f)) ++ [46])
              (ratTrunc ((-f - ((ratTrunc (-f) : Int) : Rat)) * 1000))
          else appendInt ([] ++ [45]) (ratTrunc (-f))) =
          [45] ++ (if 0 < -f - ((ratTrunc (-f) : Int) : Rat) then
            appendInt (appendInt [] (ratTrunc (-f)) ++ [46])
              (ratTrunc ((-f - ((ratTrunc (-f) : Int) : Rat)) * 1000))
          else appendInt [] (ratTrunc (-f))) := by
        split_ifs with hf
        · rw [appendInt_append (appendInt ([] ++ [45]) (ratTrunc (-f)) ++ [46]),
            appendInt_append ([] ++ [45]),
            appendInt_append (appendInt [] (ratTrunc (-f)) ++ [46])]
          simp
        · rw [appendInt_append ([] ++ [45])]
          simp
      rw [hb]
      obtain ⟨d, ds, heqI, hdI, _, _⟩ := appendInt_nonneg_shape (ratTrunc (-f)) hI0 hI1
      obtain ⟨t, hbody, hhead⟩ : ∃ t,
          (if 0 < -f - ((ratTrunc (-f) : Int) : Rat) then
            appendInt (appendInt [] (ratTrunc (-f)) ++ [46])
              (ratTrunc ((-f - ((ratTrunc (-f) : Int) : Rat)) * 1000))
          else appendInt [] (ratTrunc (-f))) = d :: t ∧ isDigit d = true := by
        split_ifs with hf
        · refine ⟨ds ++ [46] ++ appendInt []
              (ratTrunc ((-f - ((ratTrunc (-f) : Int) : Rat)) * 1000)), ?_, hdI⟩
          rw [appendInt_append (appendInt [] (ratTrunc (-f)) ++ [46]), heqI]
          simp
        · exact ⟨ds, heqI, hdI⟩
      rw [hbody]
      have hshape : ([45] ++ (d :: t)) ++ rest = (45 :: (d :: t)) ++ rest := by simp
      rw [hshape, parseNumber_cons45 d t rest hhead, ← hbody]
      exact floatBody_parse (-f) rest hg0 hg1 hrest
    · simp only [hn, if_false]
      have hg0 : (0 : Rat) < f := by
        rcases lt_trichotomy f 0 with h | h | h
        · exact absurd h hn
        · exact absurd h h0
        · exact h
      exact floatBody_parse f rest hg0 h2 hrest

/-- The first byte of an in-range integer rendering: a minus or a digit. -/
theorem appendInt_head (i : Int) (h0 : -(2 ^ 63) < i) (h1 : i < 2 ^ 63) :
    ∃ hb t, appendInt [] i = hb :: t ∧ (hb = 45 ∨ isDigit hb = true) := by
  rcases le_or_lt 0 i with hge | hlt
  · obtain ⟨d, ds, heq, hd, _, _⟩ := appendInt_nonneg_shape i hge h1
    exact ⟨d, ds, heq, Or.inr hd⟩
  · rw [appendInt_neg_eq i hlt h0]
    exact ⟨45, appendInt [] (-i), rfl, Or.inl rfl⟩

/-- The first byte of an in-range float rendering: a minus or a digit. -/
theorem appendJSONFloat_head (f : Rat) (h1 : -((2 : Rat) ^ 63) < f) (h2 : f < (2 : Rat) ^ 63) :
    ∃ hb t, appendJSONFloat [] f = hb :: t ∧ (hb = 45 ∨ isDigit hb = true) := by
  by_cases h0 : f = 0
  · subst h0
    exact ⟨48, [], by decide, Or.inr (by decide)⟩
  · simp only [appendJSONFloat, h0, if_false]
    by_cases hn : f < 0
    · simp only [hn, if_true]
      split_ifs with hf
      · refine ⟨45, appendInt [] (ratTrunc (-f)) ++ [46] ++
            appendInt [] (ratTrunc ((-f - ((ratTrunc (-f) : Int) : Rat)) * 1000)), ?_, Or.inl rfl⟩
        rw [appendInt_append (appendInt ([] ++ [45]) (ratTrunc (-f)) ++ [46]),
          appendInt_append ([] ++ [45])]
        simp
      · refine ⟨45, appendInt [] (ratTrunc (-f)), ?_, Or.inl rfl⟩
        rw [appendInt_append ([] ++ [45])]
        simp
    · simp only [hn, if_false]
      have hg0 : (0 : Rat) < f := by
        rcases lt_trichotomy f 0 with h | h | h
        · exact absurd h hn
        · exact absurd h h0
        · exact h
      obtain ⟨hI, hI0, hI1⟩ := ratTrunc_pos_facts f hg0 h2
      obtain ⟨d, ds, heq, hd, _, _⟩ := appendInt_nonneg_shape (ratTrunc f) hI0 hI1
      split_ifs with hf
      · refine ⟨d, ds ++ [46] ++
            appendInt [] (ratTrunc ((f - ((ratTrunc f : Int) : Rat)) * 1000)), ?_, Or.inr hd⟩
        rw [appendInt_append (appendInt [] (ratTrunc f) ++ [46]), heq]
        simp
      · exact ⟨d, ds, heq, Or.inr hd⟩

/-- A well-delimited member tail is a number delimiter. -/
theorem memberDelim_numDelim (rest : List Nat)
    (hrest : rest.head? = some 44 ∨ rest = [125]) : NumDelim rest := by
  rcases hrest with h | h
  · rcases rest with _ | ⟨c, r⟩
    · simp at h
    · have : c = 44 := by simpa using h
      subst this
      exact Or.inr ⟨44, r, rfl, by decide, by decide, by decide, by decide⟩
  · subst h
    exact Or.inr ⟨125, [], rfl, by decide, by decide, by decide, by decide⟩

/-- The JSON value encoder's output parses back as the corresponding
primitive JSON value. -/
theorem parseValue_enc (v : Value) (rest : List Nat) (hok : valueOK v)
    (hrest : rest.head? = some 44 ∨ rest = [125]) :
    parseValue (appendJSONValue [] v ++ rest) = some (jvalOf v, rest) := by
  have hnd : NumDelim rest := memberDelim_numDelim rest hrest
  cases v with
  | str s =>
    have hshape : appendJSONValue [] (Value.str s) ++ rest = 34 :: (escStr s ++ 34 :: rest) := by
      simp only [appendJSONValue]
      rw [appendJSONString_eq]
      simp
    rw [hshape]
    simp only [parseValue, eq_self_iff_true, if_true]
    rw [parseStringBody_esc s rest hok]
    rfl
  | int i =>
    rcases hok with ⟨hlo, hhi⟩
    obtain ⟨hb, t, heq, hh⟩ := appendInt_head i hlo hhi
    have h34 : ¬ hb = 34 := by
      rcases hh with h | h
      · omega
      · simp only [isDigit, Bool.and_eq_true, decide_eq_true_eq] at h; omega
    have h116 : ¬ hb = 116 := by
      rcases hh with h | h
      · omega
      · simp only [isDigit, Bool.and_eq_true, decide_eq_true_eq] at h; omega
    have h102 : ¬ hb = 102 := by
      rcases hh with h | h
      · omega
      · simp only [isDigit, Bool.and_eq_true, decide_eq_true_eq] at h; omega
    have hgoal : appendJSONValue [] (Value.int i) ++ rest = hb :: (t ++ rest) := by
      simp only [appendJSONValue]
      rw [heq]
      simp
    rw [hgoal]
    simp only [parseValue, h34, if_false, List.take_succ_cons, List.cons.injEq, h116, h102,
      false_and, if_false]
    have hnum : parseNumber (hb :: (t ++ rest)) = some rest := by
      rw [← List.cons_append, ← heq]
      exact parseNumber_appendInt i rest hlo hhi hnd
    rw [hnum]
    rfl
  | float f =>
    rcases hok with ⟨hlo, hhi⟩
    obtain ⟨hb, t, heq, hh⟩ := appendJSONFloat_head f hlo hhi
    have h34 : ¬ hb = 34 := by
      rcases hh with h | h
      · omega
      · simp only [isDigit, Bool.and_eq_true, decide_eq_true_eq] at h; omega
    have h116 : ¬ hb = 116 := by
      rcases hh with h | h
      · omega
      · simp only [isDigit, Bool.and_eq_true, decide_eq_true_eq] at h; omega
    have h102 : ¬ hb = 102 := by
      rcases hh with h | h
      · omega
      · simp only [isDigit, Bool.and_eq_true, decide_eq_true_eq] at h; omega
    have hgoal : appendJSONValue [] (Value.float f) ++ rest = hb :: (t ++ rest) := by
      simp only [appendJSONValue]
      rw [heq]
      simp
    rw [hgoal]
    simp only [parseValue, h34, if_false, List.take_succ_cons, List.cons.injEq, h116, h102,
      false_and, if_false]
    have hnum : parseNumber (hb :: (t ++ rest)) = some rest := by
      rw [← List.cons_append, ← heq]
      exact parseNumber_appendJSONFloat f rest hlo hhi hnd
    rw [hnum]
    rfl
  | bool b =>
    cases b with
    | true =>
      have hb : appendJSONValue [] (Value.bool true) = [116, 114, 117, 101] := by decide
      rw [hb]
      simp [parseValue, jvalOf]
    | false =>
      have hb : appendJSONValue [] (Value.bool false) = [102, 97, 108, 115, 101] := by decide
      rw [hb]
      simp [parseValue, jvalOf]
  | other =>
    have hesc : escStr (strBytes "unknown") = strBytes "unknown" := by decide
    have hshape : appendJSONValue [] Value.other ++ rest =
        34 :: (escStr (strBytes "unknown") ++ 34 :: rest) := by
      simp only [appendJSONValue]
      rw [appendJSONString_eq, hesc]
      simp
    rw [hshape]
    simp only [parseValue, eq_self_iff_true, if_true]
    rw [parseStringBody_esc (strBytes "unknown") rest (by decide)]
    rfl

/-- The serialized member of a clean key and an admissible value is
recognized by the member parser. -/
theorem memberEnc_memberB (key : List Nat) (v : Value) (hk : cleanStr key = true)
    (hv : valueOK v) : MemberEnc (memberB key v) (key, jvalOf v) := by
  intro rest hrest
  have hshape : memberB key v ++ rest =
      34 :: (escStr key ++ 34 :: (58 :: (appendJSONValue [] v ++ rest))) := by
    simp [memberB]
  rw [hshape]
  simp only [parseMember, eq_self_iff_true, if_true]
  rw [parseStringBody_esc key (58 :: (appendJSONValue [] v ++ rest)) hk]
  simp only [eq_self_iff_true, if_true]
  rw [parseValue_enc v rest hv hrest]

/-- Parsing a whole object body whose members are all properly
serialized yields exactly those members, in order. -/
theorem parseMembers_enc :
    ∀ (ms : List (List Nat)) (kvs : List ((List Nat) × JVal)) (m0 : List Nat)
      (kv0 : (List Nat) × JVal), MemberEnc m0 kv0 → List.Forall₂ MemberEnc ms kvs →
      ∀ fuel, ms.length < fuel →
        parseMembers fuel (membersBytes m0 ms) = some (kv0 :: kvs) := by
  intro ms
  induction ms with
  | nil =>
    intro kvs m0 kv0 h0 hf fuel hfuel
    have hkvs : kvs = [] := by cases hf; rfl
    subst hkvs
    obtain ⟨f, rfl⟩ : ∃ f, fuel = f + 1 := ⟨fuel - 1, by omega⟩
    have h125 := h0 [125] (Or.inr rfl)
    show parseMembers (f + 1) (m0 ++ membersTail []) = some [kv0]
    simp only [membersTail]
    simp only [parseMembers, h125]
    simp
  | cons m ms ih =>
    intro kvs m0 kv0 h0 hf fuel hfuel
    cases hf with
    | cons hm hms =>
      obtain ⟨f, rfl⟩ : ∃ f, fuel = f + 1 := ⟨fuel - 1, by omega⟩
      have h1 := h0 (44 :: (m ++ membersTail ms)) (Or.inl rfl)
      have hshape : membersBytes m0 (m :: ms) = m0 ++ (44 :: (m ++ membersTail ms)) := by
        simp [membersBytes, membersTail]
      rw [hshape]
      simp only [parseMembers, h1, eq_self_iff_true, if_true]
      rw [show m ++ membersTail ms = membersBytes m ms from rfl]
      rw [ih _ m _ hm hms f (by simp at hfuel; omega)]
      rfl

/-- The JSON field loop emits exactly the comma-prefixed member bytes. -/
theorem jsonFieldF_memberB (f : Field) :
    jsonFieldF [] f = [44] ++ memberB f.key f.value := by
  unfold jsonFieldF memberB
  rw [appendJSONString_eq f.key ([] ++ [44, 34]),
    appendJSONValue_append ((([] ++ [44, 34]) ++ escStr f.key) ++ [34, 58])]
  simp

theorem foldl_jsonFieldF_members (fields : List Field) :
    List.foldl jsonFieldF [] fields ++ [125] =
      membersTail (fields.map (fun f => memberB f.key f.value)) := by
  induction fields with
  | nil => simp [membersTail]
  | cons f fs ih =>
    simp only [List.foldl, List.map]
    rw [foldl_append_of_step jsonFieldF jsonFieldF_append fs (jsonFieldF [] f)]
    simp only [membersTail]
    rw [jsonFieldF_memberB, ← ih]
    simp

/-- The serialized member of a string value, written out. -/
theorem memberB_str (key s : List Nat) :
    memberB key (Value.str s) =
      [34] ++ escStr key ++ [34, 58] ++ ([34] ++ escStr s ++ [34]) := by
  simp only [memberB, appendJSONValue]
  rw [appendJSONString_eq]
  simp

/-- The encoded JSON record, decomposed into its serialized members. -/
theorem appendJSON_decomp (cfg : Config) (now : GoTime) (buf : List Nat) (lvl : Int)
    (msg : List Nat) (fields : List Field) :
    appendJSON cfg now buf lvl msg fields =
      (buf ++ [123]) ++ membersBytes
        (memberB (strBytes "timestamp")
          (Value.str (fmtNano (if cfg.useUTC then now.utc else now))))
        ([memberB (strBytes "level") (Value.str (levelString lvl)),
          memberB (strBytes "message") (Value.str msg)] ++
          fields.map (fun f => memberB f.key f.value)) := by
  have h1 : strBytes "\"timestamp\":\"" = [34] ++ strBytes "timestamp" ++ [34, 58, 34] := by decide
  have h2 : strBytes ",\"level\":\"" = [44, 34] ++ strBytes "level" ++ [34, 58, 34] := by decide
  have h3 : strBytes ",\"message\":\"" = [44, 34] ++ strBytes "message" ++ [34, 58, 34] := by
    decide
  have e1 : escStr (strBytes "timestamp") = strBytes "timestamp" := by decide
  have e2 : escStr (strBytes "level") = strBytes "level" := by decide
  have e3 : escStr (strBytes "message") = strBytes "message" := by decide
  have ets : escStr (fmtNano (if cfg.useUTC then now.utc else now)) =
      fmtNano (if cfg.useUTC then now.utc else now) :=
    escStr_id _ (fun b hb => raw_no_escape (fmtNano_range _ b hb))
  have elvl : escStr (levelString lvl) = levelString lvl :=
    escStr_id _ (fun b hb => raw_no_escape (by have := levelString_range lvl b hb; omega))
  simp only [appendJSON]
  rw [foldl_append_of_step jsonFieldF jsonFieldF_append fields, appendJSONString_eq]
  rw [h1, h2, h3]
  rw [memberB_str, memberB_str, memberB_str]
  rw [e1, e2, e3, ets, elvl]
  simp only [membersBytes, List.cons_append, List.nil_append, membersTail, List.append_eq]
  rw [← foldl_jsonFieldF_members fields]
  simp [List.append_assoc]

theorem cleanStr_of_range (l : List Nat) (h : ∀ b ∈ l, 43 ≤ b ∧ b ≤ 90) :
    cleanStr l = true := by
  simp only [cleanStr, List.all_eq_true]
  intro b hb
  have := h b hb
  simp only [cleanByte, Bool.and_eq_true, Bool.or_eq_true, decide_eq_true_eq, beq_iff_eq]
  omega

theorem forall₂_memberB (fields : List Field)
    (hfields : ∀ f ∈ fields, cleanStr f.key = true ∧ valueOK f.value) :
    List.Forall₂ MemberEnc (fields.map (fun f => memberB f.key f.value))
      (fields.map (fun f => (f.key, jvalOf f.value))) := by
  induction fields with
  | nil => exact List.Forall₂.nil
  | cons f fs ih =>
    simp only [List.map]
    exact List.Forall₂.cons
      (memberEnc_memberB f.key f.value (hfields f (by simp)).1 (hfields f (by simp)).2)
      (ih fun g hg => hfields g (by simp [hg]))

theorem membersTail_length_ge (ms : List (List Nat)) : ms.length ≤ (membersTail ms).length := by
  induction ms with
  | nil => simp [membersTail]
  | cons m msr ih =>
    simp [membersTail]
    omega

/- ### C4: JSON records are well-formed and parse back in key order -/

/-- C4 (amended): for every level, message and field sequence whose
strings contain no raw control bytes other than tab, newline and carriage
return (the only ones the encoder escapes), whose `int64` values are above
`math.MinInt64`, and whose floats are within the `int64` range, the
JSON-mode record is a syntactically valid single-line JSON object that
parses back with its keys in exactly the order timestamp, level, message,
then the fields in input order — duplicate keys preserved, not merged
(the parsed member list mirrors the field list one-to-one). -/
theorem jsonRecordParsesBack (cfg : Config) (now : GoTime) (lvl : Int) (msg : List Nat)
    (fields : List Field) (hmsg : cleanStr msg = true)
    (hfields : ∀ f ∈ fields, cleanStr f.key = true ∧ valueOK f.value) :
    parseRecord (appendJSON cfg now [] lvl msg fields) =
      some ((strBytes "timestamp", JVal.jstr (fmtNano (if cfg.useUTC then now.utc else now))) ::
        (strBytes "level", JVal.jstr (levelString lvl)) ::
        (strBytes "message", JVal.jstr msg) ::
        fields.map (fun f => (f.key, jvalOf f.value))) := by
  rw [appendJSON_decomp]
  have henc0 : MemberEnc
      (memberB (strBytes "timestamp")
        (Value.str (fmtNano (if cfg.useUTC then now.utc else now))))
      (strBytes "timestamp",
        JVal.jstr (fmtNano (if cfg.useUTC then now.utc else now))) :=
    memberEnc_memberB _ _ (by decide)
      (cleanStr_of_range _ (fmtNano_range (if cfg.useUTC then now.utc else now)))
  have henc1 : MemberEnc (memberB (strBytes "level") (Value.str (levelString lvl)))
      (strBytes "level", JVal.jstr (levelString lvl)) :=
    memberEnc_memberB _ _ (by decide)
      (cleanStr_of_range _ (fun b hb => by have := levelString_range lvl b hb; omega))
  have henc2 : MemberEnc (memberB (strBytes "message") (Value.str msg))
      (strBytes "message", JVal.jstr msg) :=
    memberEnc_memberB _ _ (by decide) hmsg
  have hf2 : List.Forall₂ MemberEnc
      ([memberB (strBytes "level") (Value.str (levelString lvl)),
        memberB (strBytes "message") (Value.str msg)] ++
        fields.map (fun f => memberB f.key f.value))
      ((strBytes "level", JVal.jstr (levelString lvl)) ::
        (strBytes "message", JVal.jstr msg) ::
        fields.map (fun f => (f.key, jvalOf f.value))) := by
    exact List.Forall₂.cons henc1 (List.Forall₂.cons henc2 (forall₂_memberB fields hfields))
  have hshape : ∀ X : List Nat, ([] ++ [123]) ++ X = 123 :: X := by intro X; simp
  rw [hshape]
  simp only [parseRecord]
  have hne : ¬ (membersBytes
      (memberB (strBytes "timestamp")
        (Value.str (fmtNano (if cfg.useUTC then now.utc else now))))
      ([memberB (strBytes "level") (Value.str (levelString lvl)),
        memberB (strBytes "message") (Value.str msg)] ++
        fields.map (fun f => memberB f.key f.value)) = [125]) := by
    simp [membersBytes, memberB]
  simp only [eq_self_iff_true, if_true, hne, if_false]
  apply parseMembers_enc _ _ _ _ henc0 hf2
  have h1 := membersTail_length_ge
      ([memberB (strBytes "level") (Value.str (levelString lvl)),
        memberB (strBytes "message") (Value.str msg)] ++
        fields.map (fun f => memberB f.key f.value))
  simp only [membersBytes, List.length_append, List.length_cons, List.length_nil] at h1 ⊢
  omega

/-- C4 (counterexample): the claim fails as universally stated.  A message
containing the raw control byte 0x01 yields a record with an unescaped
control character inside a JSON string (invalid per the JSON grammar), and
a field holding `math.MinInt64` yields `"k":-` with a bare minus sign —
neither record parses. -/
theorem jsonRecord_cex :
    parseRecord (appendJSON { level := 0, format := Format.json, bufferSize := 0, useUTC := true }
        { sec := 0, nsec := 0, offsetMin := 0 } [] 0 [1] []) = none ∧
    parseRecord (appendJSON { level := 0, format := Format.json, bufferSize := 0, useUTC := true }
        { sec := 0, nsec := 0, offsetMin := 0 } [] 0 (strBytes "m")
        [{ key := strBytes "k", value := Value.int (-(2 ^ 63)) }]) = none := by
  exact ⟨by decide, by decide⟩

/-- Witness for C4 at a concrete record with one integer field. -/
theorem jsonRecordParsesBack_witness :
    parseRecord (appendJSON { level := 0, format := Format.json, bufferSize := 0, useUTC := true }
        { sec := 0, nsec := 0, offsetMin := 0 } [] 0 (strBytes "hi")
        [{ key := strBytes "k", value := Value.int 5 }]) =
      some ((strBytes "timestamp",
          JVal.jstr (fmtNano (GoTime.utc { sec := 0, nsec := 0, offsetMin := 0 }))) ::
        (strBytes "level", JVal.jstr (levelString 0)) ::
        (strBytes "message", JVal.jstr (strBytes "hi")) ::
        [(strBytes "k", JVal.jnum)]) :=
  jsonRecordParsesBack _ _ _ _ _ (by decide)
    (by
      intro f hf
      simp only [List.mem_singleton] at hf
      subst hf
      exact ⟨by decide, by decide, by decide⟩)

end Logslib
